/-
Verification development for the per-frame spatial binning and cross-frame
aggregation engine of `Scripts/Membrane_analysis.py` (class
`Membrane_properties`).

The Python code is shallowly embedded:
* coordinates and cell sizes are rationals (`ℚ`); Python's `int()` cast is
  truncation toward zero (`pyInt`);
* numpy 3D count arrays (`mem_slab0`, `prot_slab1`, `wat_slab2`, ...) are
  total functions `ℕ → ℕ → ℕ → ℕ` over resolved (nonnegative) positions;
  numpy / Python-list indexing semantics — an index `i` is accepted iff
  `-n ≤ i < n`, a negative index wrapping to `i + n`, anything else raising
  `IndexError` (caught by the `try/except` blocks of the source) — is
  modelled by `npIdx` returning `Option ℕ`;
* the `try/except` control flow of `Get_info` is modelled by matching on
  those `Option` results, reproducing exactly which mutations persist when
  an exception interrupts a block;
* printed warnings are collected in a list of `Warning` values.
-/
import Mathlib

namespace MembraneAnalysis

/-- Python's `int()` cast on a real number: truncation toward zero
(`int(2.7) = 2`, `int(-2.7) = -2`). -/
def pyInt (q : ℚ) : ℤ := if 0 ≤ q then ⌊q⌋ else ⌈q⌉

/-- One atom of a selection group: position (Å), residue id (`t.resid`)
and residue name (`t.resname`, used only in warnings). -/
structure Atom where
  x : ℚ
  y : ℚ
  z : ℚ
  resid : ℤ
  resname : String
deriving DecidableEq

/-- The grid/run configuration used by one `Get_info` run: lateral cell
size `dz` (`self.dz`, constructor parameter `d`), normal cell size `dh`
(`self.dh`), grid dimensions `nz nx ny`, and whether the head-subset
selection differs from the all-atom membrane selection
(`split = (sel_m_a != sel_m)`). -/
structure Cfg where
  dz : ℚ
  dh : ℚ
  nz : ℕ
  nx : ℕ
  ny : ℕ
  split : Bool

/-- A numpy `(nz, nx, ny)` integer array, as a total function over resolved
nonnegative positions `[z][x][y]`.  Cells never written stay `0`, matching
`np.zeros`. -/
abbrev Vol := ℕ → ℕ → ℕ → ℕ

/-- `np.zeros((nz,nx,ny), dtype=int)`. -/
def vzero : Vol := fun _ _ _ => 0

/-- Read a cell at a resolved position. -/
def vget (v : Vol) (p : ℕ × ℕ × ℕ) : ℕ := v p.1 p.2.1 p.2.2

/-- Write a cell at a resolved position. -/
def vset (v : Vol) (p : ℕ × ℕ × ℕ) (val : ℕ) : Vol :=
  fun a b c => if a = p.1 ∧ b = p.2.1 ∧ c = p.2.2 then val else v a b c

/-- Lines 351-353 / 360-362 / 375-377 / 388-390 / 399-401 of the source:
`ix = (int)(at[0]/self.dz); iy = (int)(at[1]/self.dz); iz = (int)(at[2]/self.dh)`.
Returned in order `(iz, ix, iy)`, the array index order used by the code. -/
def cellIdx (dz dh : ℚ) (a : Atom) : ℤ × ℤ × ℤ :=
  (pyInt (a.z / dh), pyInt (a.x / dz), pyInt (a.y / dz))

/-- numpy / Python-list index resolution for one axis of size `n`:
`i ∈ [0, n)` is used as is, `i ∈ [-n, 0)` wraps to `i + n`, anything else
raises `IndexError` (modelled by `none`). -/
def npIdx (n : ℕ) (i : ℤ) : Option ℕ :=
  if 0 ≤ i ∧ i < (n : ℤ) then some i.toNat
  else if -(n : ℤ) ≤ i ∧ i < 0 then some (i + n).toNat
  else none

/-- Resolution of a 3D index `(iz, ix, iy)` against the `(nz, nx, ny)`
array shape; `none` models the `IndexError` caught by the source's
`try/except`. -/
def npPos (cfg : Cfg) (t : ℤ × ℤ × ℤ) : Option (ℕ × ℕ × ℕ) :=
  match npIdx cfg.nz t.1, npIdx cfg.nx t.2.1, npIdx cfg.ny t.2.2 with
  | some kz, some kx, some ky => some (kz, kx, ky)
  | _, _, _ => none

/-- One printed out-of-box warning, e.g. line 357:
`print("Warning: Membrane is out of the box residue ", t.resname, at, " size:", nx,ny,nz, "index:", ix,iy,iz)`. -/
structure Warning where
  resname : String
  px : ℚ
  py : ℚ
  pz : ℚ
  iz : ℤ
  ix : ℤ
  iy : ℤ
deriving DecidableEq

/-- The warning printed for an atom `a` whose computed index `t = (iz,ix,iy)`
raised an `IndexError`. -/
def warnOf (a : Atom) (t : ℤ × ℤ × ℤ) : Warning :=
  { resname := a.resname, px := a.x, py := a.y, pz := a.z,
    iz := t.1, ix := t.2.1, iy := t.2.2 }

/-- State built by the membrane passes of `Get_info` (lines 338-384):
`mem_slab0`, `mem_resid_slab0`, `resid_list` (per z), `resid_list_zx`
(per z, x), and the warnings printed so far. -/
structure MemSt where
  mem : Vol
  mres : Vol
  rl : ℕ → List ℤ
  rzx : ℕ → ℕ → List ℤ
  warns : List Warning

/-- Lines 366-371 (identically 378-382): the residue-registration block
```
try:
    if n not in resid_list[iz]:
        resid_list[iz].append(n)
        resid_list_zx[iz][ix].append(n)
except: pass
```
Both Python lists have outer length `nz` (`resid_list_zx` rows have length
`nx`), so `resid_list[iz]` resolves `iz` against `nz` and
`resid_list_zx[iz][ix]` resolves `ix` against `nx`.  If `ix` is out of
range the `IndexError` strikes *after* `resid_list[iz].append(n)` has
already happened, so the per-z registration persists while the per-(z,x)
one is lost. -/
def regResid (cfg : Cfg) (rl : ℕ → List ℤ) (rzx : ℕ → ℕ → List ℤ)
    (iz ix : ℤ) (n : ℤ) : (ℕ → List ℤ) × (ℕ → ℕ → List ℤ) :=
  match npIdx cfg.nz iz with
  | none => (rl, rzx)
  | some kz =>
    if n ∈ rl kz then (rl, rzx)
    else
      let rl2 : ℕ → List ℤ := fun k => if k = kz then rl kz ++ [n] else rl k
      match npIdx cfg.nx ix with
      | none => (rl2, rzx)
      | some kx =>
        (rl2, fun k j => if k = kz ∧ j = kx then rzx kz kx ++ [n] else rzx k j)

/-- Lines 349-357 (split-selection branch, `sel_m_a` atoms):
`try: mem_slab0[iz,ix,iy] += 1 except: print warning`. -/
def memAllStep (cfg : Cfg) (s : Vol × List Warning) (a : Atom) :
    Vol × List Warning :=
  let t := cellIdx cfg.dz cfg.dh a
  match npPos cfg t with
  | some p => (vset s.1 p (vget s.1 p + 1), s.2)
  | none => (s.1, s.2 ++ [warnOf a t])

/-- Lines 358-371 (split-selection branch, `sel_m` atoms): first
`try: mem_resid_slab0[iz,ix,iy] += 1 except: pass`, then the
residue-registration block (`regResid`). -/
def memHeadSplitStep (cfg : Cfg) (st : MemSt) (a : Atom) : MemSt :=
  let t := cellIdx cfg.dz cfg.dh a
  let mres2 :=
    match npPos cfg t with
    | some p => vset st.mres p (vget st.mres p + 1)
    | none => st.mres
  let rr := regResid cfg st.rl st.rzx t.1 t.2.1 a.resid
  { st with mres := mres2, rl := rr.1, rzx := rr.2 }

/-- Lines 373-384 (joint-selection branch, `sel_m` atoms):
```
try:
    mem_slab0[iz,ix,iy] += 1
    if n not in resid_list[iz]: ...append...
except: print warning
```
If the index raises, nothing is mutated and the warning is printed; if it
resolves, the increment happens and the registration block cannot raise
(all list indices are in range). -/
def memSameStep (cfg : Cfg) (st : MemSt) (a : Atom) : MemSt :=
  let t := cellIdx cfg.dz cfg.dh a
  match npPos cfg t with
  | none => { st with warns := st.warns ++ [warnOf a t] }
  | some p =>
    let rr := regResid cfg st.rl st.rzx t.1 t.2.1 a.resid
    { st with mem := vset st.mem p (vget st.mem p + 1), rl := rr.1, rzx := rr.2 }

/-- Lines 338-384: the membrane passes of one frame.  In the
split-selection case (`sel_m_a != sel_m`) the all-atom pass fills
`mem_slab0` (with warnings) and the head-subset pass fills
`mem_resid_slab0` and the residue lists; otherwise a single pass over the
head selection fills `mem_slab0` and the residue lists. -/
def membranePhase (cfg : Cfg) (memAll memHead : List Atom) : MemSt :=
  if cfg.split then
    memHead.foldl (memHeadSplitStep cfg)
      { mem := (memAll.foldl (memAllStep cfg) (vzero, [])).1, mres := vzero,
        rl := fun _ => [], rzx := fun _ _ => [],
        warns := (memAll.foldl (memAllStep cfg) (vzero, [])).2 }
  else
    memHead.foldl (memSameStep cfg)
      { mem := vzero, mres := vzero, rl := fun _ => [], rzx := fun _ _ => [],
        warns := [] }

/-- Lines 387-395: protein/ligand pass —
`try: if mem_slab0[iz,ix,iy] == 0: prot_slab1[iz,ix,iy] += 1 except: print warning`. -/
def protStep (cfg : Cfg) (mem : Vol) (s : Vol × List Warning) (a : Atom) :
    Vol × List Warning :=
  let t := cellIdx cfg.dz cfg.dh a
  match npPos cfg t with
  | none => (s.1, s.2 ++ [warnOf a t])
  | some p =>
    if vget mem p = 0 then (vset s.1 p (vget s.1 p + 1), s.2) else s

/-- Lines 398-407: water pass —
`try: if prot_slab1[..] == 0 and mem_slab0[..] == 0: wat_slab2[..] = 1 except: pass`. -/
def watStep (cfg : Cfg) (mem prot : Vol) (w : Vol) (a : Atom) : Vol :=
  let t := cellIdx cfg.dz cfg.dh a
  match npPos cfg t with
  | none => w
  | some p =>
    if vget prot p = 0 ∧ vget mem p = 0 then vset w p 1 else w

/-- `np.count_nonzero(v[iz])` over the `(nx, ny)` slab at height `kz`. -/
def countNZ (cfg : Cfg) (v : Vol) (kz : ℕ) : ℕ :=
  ((List.range cfg.nx).map
    (fun kx => ((List.range cfg.ny).filter
      (fun ky => decide (v kz kx ky ≠ 0))).length)).sum

/-- Lines 417-419: `count * self.dz * self.dz` assigned into a
`dtype=int` numpy array — the value is truncated to an integer by the
C cast (truncation toward zero, i.e. floor for this nonnegative value). -/
def areaInt (cfg : Cfg) (c : ℕ) : ℤ := pyInt ((c : ℚ) * cfg.dz * cfg.dz)

/-- The four selection groups of one frame, in the source's order:
`u_mem_sel_m_a` (membrane all-atoms), `u_mem_sel_m` (membrane head
subset), `u_mem_sel_p` (protein + ligands), `u_mem_sel_w` (water). -/
structure FrameAtoms where
  memAll : List Atom
  memHead : List Atom
  prot : List Atom
  wat : List Atom

/-- Everything `Get_info` appends to the per-frame lists for one frame
(lines 424-433), plus the warnings printed while processing it. -/
structure FrameResult where
  mem : Vol
  mres : Vol
  prot : Vol
  wat : Vol
  rl : ℕ → List ℤ
  rzx : ℕ → ℕ → List ℤ
  protArea : ℕ → ℤ
  memArea : ℕ → ℤ
  watArea : ℕ → ℤ
  totArea : ℕ → ℤ
  residArr : ℕ → ℕ
  residZX : ℕ → ℕ → ℕ
  warns : List Warning

/-- Lines 338-433: processing of a single frame of the trajectory —
membrane passes, protein pass, water pass, then the per-z reduction
(lines 409-423):
`prot_area1[iz] = np.count_nonzero(prot_slab1[iz])*dz*dz` (idem membrane,
water), `tot_area1[iz] = prot_area1[iz]+mem_area1[iz]+wat_area1[iz]`,
`resid_array0[iz] = len(resid_list[iz])`,
`resid_array_zx0[iz][ix] = len(resid_list_zx[iz][ix])`. -/
def getInfoFrame (cfg : Cfg) (f : FrameAtoms) : FrameResult :=
  let mst := membranePhase cfg f.memAll f.memHead
  let pr := f.prot.foldl (protStep cfg mst.mem) (vzero, mst.warns)
  let w := f.wat.foldl (watStep cfg mst.mem pr.1) vzero
  { mem := mst.mem
    mres := mst.mres
    prot := pr.1
    wat := w
    rl := mst.rl
    rzx := mst.rzx
    protArea := fun kz => areaInt cfg (countNZ cfg pr.1 kz)
    memArea := fun kz => areaInt cfg (countNZ cfg mst.mem kz)
    watArea := fun kz => areaInt cfg (countNZ cfg w kz)
    totArea := fun kz =>
      areaInt cfg (countNZ cfg pr.1 kz) + areaInt cfg (countNZ cfg mst.mem kz)
        + areaInt cfg (countNZ cfg w kz)
    residArr := fun kz => (mst.rl kz).length
    residZX := fun kz kx => (mst.rzx kz kx).length
    warns := pr.2 }

/-- One trajectory frame as seen by the driver: the (post-normalization)
box dimensions `u.dimensions[0:3]` and the four selection groups.
(`pbc` / `pbc_plane` translate and wrap atoms but do not change the box
dimensions.) -/
structure Frame where
  boxx : ℚ
  boxy : ℚ
  boxz : ℚ
  atoms : FrameAtoms

/-- Line 197: `self.margin = max(2, int(4.0/d)+1)`. -/
def margin (d : ℚ) : ℤ := max 2 (pyInt (4 / d) + 1)

/-- Lines 289-433 of `Get_info`, driver part: the grid dimensions are
computed once (lines 298-300) from trajectory frame 0's box dimensions —
`nz = int(dim[2]/dh)+margin+1`, `nx = int(dim[0]/d)+margin`,
`ny = int(dim[1]/d)+margin` — and the per-frame analysis is run over the
frames selected by the interval, appending one result per frame.
`f0` is trajectory frame 0 (used only for grid sizing), `processed` the
selected frames in processing order. -/
def Get_info (d dh : ℚ) (split : Bool) (f0 : Frame) (processed : List Frame) :
    Cfg × List FrameResult :=
  let m := margin d
  let cfg : Cfg :=
    { dz := d, dh := dh,
      nz := (pyInt (f0.boxz / dh) + m + 1).toNat,
      nx := (pyInt (f0.boxx / d) + m).toNat,
      ny := (pyInt (f0.boxy / d) + m).toNat,
      split := split }
  (cfg, processed.foldl (fun acc fr => acc ++ [getInfoFrame cfg fr.atoms]) [])

/-! ### `Prep4plot` (lines 444-515): derived densities and 2D-map averaging -/

/-- Line 460: `area_xy = self.nx*self.ny*self.dz*self.dz`. -/
def areaXY (cfg : Cfg) : ℚ := (cfg.nx : ℚ) * (cfg.ny : ℚ) * cfg.dz * cfg.dz

/-- Line 479: `area_m = area_xy - self.prot_area[frame]`, the membrane-available
lateral area at height `kz`. -/
def areaM (cfg : Cfg) (r : FrameResult) (kz : ℕ) : ℚ :=
  areaXY cfg - (r.protArea kz : ℚ)

/-- Lines 472 / 480: `np.sum(np.sum(v[frame], axis=2), axis=1)` — the total
atom count of the slab at height `kz`. -/
def slabSum (cfg : Cfg) (v : Vol) (kz : ℕ) : ℕ :=
  ((List.range cfg.nx).map
    (fun kx => ((List.range cfg.ny).map (fun ky => v kz kx ky)).sum)).sum

/-- Lines 473-476: protein density per z —
`if a > 0: dens_p0.append(d/a) else: dens_p0.append(0)`. -/
def dens_p (cfg : Cfg) (r : FrameResult) (kz : ℕ) : ℚ :=
  if 0 < r.protArea kz then
    (slabSum cfg r.prot kz : ℚ) / (r.protArea kz : ℚ)
  else 0

/-- Lines 485-493: membrane density per z —
`if a > 0 and r > 0: dens_m0.append(d/a) else: dens_m0.append(0)`. -/
def dens_m (cfg : Cfg) (r : FrameResult) (kz : ℕ) : ℚ :=
  if 0 < areaM cfg r kz ∧ 0 < r.residArr kz then
    (slabSum cfg r.mem kz : ℚ) / areaM cfg r kz
  else 0

/-- Lines 485-493: area per membrane residue per z —
inside the `a > 0 and r > 0` branch,
`if d/a > 0.025: dens_r0.append(a/r) else: dens_r0.append(0)`,
and `0` in the `else` branch. -/
def m_r_per_area (cfg : Cfg) (r : FrameResult) (kz : ℕ) : ℚ :=
  if 0 < areaM cfg r kz ∧ 0 < r.residArr kz then
    if 0.025 < (slabSum cfg r.mem kz : ℚ) / areaM cfg r kz then
      areaM cfg r kz / (r.residArr kz : ℚ)
    else 0
  else 0

/-- `np.argwhere(ra > 0)[0][0]` on a length-`n` profile: the first index
with a nonzero value (the source would raise on an all-zero profile;
modelled by `none`). -/
def firstNZ (n : ℕ) (ra : ℕ → ℕ) : Option ℕ :=
  ((List.range n).filter (fun k => decide (0 < ra k))).head?

/-- `np.argwhere(ra > 0)[-1][0]`: the last index with a nonzero value. -/
def lastNZ (n : ℕ) (ra : ℕ → ℕ) : Option ℕ :=
  ((List.range n).filter (fun k => decide (0 < ra k))).getLast?

/-- Python `range(start, stop, step)` for a positive `step`, over `ℤ`. -/
def rangeZ (start stop step : ℤ) : List ℤ :=
  (List.range ((stop - start + step - 1).ediv step).toNat).map
    (fun i => start + step * (i : ℤ))

/-- A 2D `(x, y)` map extracted from a z-slab. -/
abbrev Map2 := ℕ → ℕ → ℕ

/-- `v[z]` for a (possibly negative) numpy z-index: wraps negative indices;
out-of-range indices (on which the source would raise an uncaught
`IndexError`) are given the junk value of an all-zero map — theorems about
this function carry the in-range side condition. -/
def slabWrap (cfg : Cfg) (v : Vol) (z : ℤ) : Map2 :=
  match npIdx cfg.nz z with
  | some kz => fun kx ky => v kz kx ky
  | none => fun _ _ => 0

/-- The list of slabs of one frame's volume at the window's z values. -/
def winMaps (cfg : Cfg) (g : FrameResult → Vol) (r : FrameResult)
    (zs : List ℤ) : List Map2 :=
  zs.map (fun z => slabWrap cfg (g r) z)

/-- Lines 509-511: `np.add` of two lists of `(nx, ny)` maps, pointwise. -/
def addMaps (A B : List Map2) : List Map2 :=
  List.zipWith (fun f g kx ky => f kx ky + g kx ky) A B

/-- Lines 500-514: accumulation of one volume's window slabs over the frame
loop — frame 0 initializes the list (`append`), every later frame is added
with `np.add`, always at the same z values `zs`. -/
def accumW (cfg : Cfg) (g : FrameResult → Vol) (r0 : FrameResult)
    (rest : List FrameResult) (zs : List ℤ) : List Map2 :=
  rest.foldl (fun acc r => addMaps acc (winMaps cfg g r zs)) (winMaps cfg g r0 zs)

/-- The 2D-map outputs of `Prep4plot` that depend on the z window. -/
structure Prep2D where
  start_mem : ℤ
  stop_mem : ℤ
  step_mem : ℤ
  mem_slab_frame : List Map2
  mem_resid_slab_frame : List Map2
  prot_slab_frame : List Map2

/-- Lines 462-465 and 499-514 of `Prep4plot`:
`start_mem = argwhere(resid_array[0] > 0)[0][0] - 2`,
`stop_mem = argwhere(resid_array[0] > 0)[-1][0] + 2`, `step_mem = 2`,
then for every frame the slabs at `range(start_mem, stop_mem, step_mem)`
are accumulated into the 2D maps.  `r0` is the first processed frame's
result, `rest` the remaining ones in order.  (`none` models the
`IndexError` the source raises when frame 0's residue profile is all
zero.) -/
def Prep4plot2D (cfg : Cfg) (r0 : FrameResult) (rest : List FrameResult) :
    Option Prep2D :=
  match firstNZ cfg.nz r0.residArr, lastNZ cfg.nz r0.residArr with
  | some a, some b =>
    let start := (a : ℤ) - 2
    let stop := (b : ℤ) + 2
    let zs := rangeZ start stop 2
    some { start_mem := start, stop_mem := stop, step_mem := 2,
           mem_slab_frame := accumW cfg (fun r => r.mem) r0 rest zs,
           mem_resid_slab_frame := accumW cfg (fun r => r.mres) r0 rest zs,
           prot_slab_frame := accumW cfg (fun r => r.prot) r0 rest zs }
  | _, _ => none

/-! ### Spec-side comparison definitions -/

/-- Modelled from the spec (§4.1): `cell_index` "using integer (floor)
division of each coordinate by its axis's cell size", in the same
`(iz, ix, iy)` order as `cellIdx`.  Used only to compare the spec's words
with the source's truncating `int()` cast. -/
def floorIdx (dz dh : ℚ) (a : Atom) : ℤ × ℤ × ℤ :=
  (⌊a.z / dh⌋, ⌊a.x / dz⌋, ⌊a.y / dz⌋)

/-- The claim's notion of an in-range atom: the computed index lies in
`[0,nz) × [0,nx) × [0,ny)` and its z component resolves to slab `k`. -/
def specInRangeB (cfg : Cfg) (a : Atom) (k : ℕ) : Bool :=
  let t := cellIdx cfg.dz cfg.dh a
  decide (0 ≤ t.1 ∧ t.1 < (cfg.nz : ℤ) ∧ 0 ≤ t.2.1 ∧ t.2.1 < (cfg.nx : ℤ) ∧
    0 ≤ t.2.2 ∧ t.2.2 < (cfg.ny : ℤ) ∧ t.1 = (k : ℤ))

/-- Modelled from the spec: the number of distinct residue ids among the
in-range head-subset atoms whose index maps to slab `k` (claim C9's
reading of "residue count per z"). -/
def specInRangeCount (cfg : Cfg) (f : FrameAtoms) (k : ℕ) : ℕ :=
  ((f.memHead.filter (fun a => specInRangeB cfg a k)).map Atom.resid).toFinset.card

/-- The condition under which the source actually registers a head-subset
atom's residue id at slab `k`: in the split-selection branch only the z
index has to resolve (against `nz`, wrapping negatives); in the
joint-selection branch the whole 3D index has to resolve. -/
def headRegB (cfg : Cfg) (a : Atom) (k : ℕ) : Bool :=
  let t := cellIdx cfg.dz cfg.dh a
  if cfg.split then npIdx cfg.nz t.1 == some k
  else
    match npPos cfg t with
    | some p => p.1 == k
    | none => false

/-- The number of distinct nonzero cells of the slab at height `kz`, as a
`Finset` cardinality (order-free formulation of `np.count_nonzero`). -/
def cardNZ (cfg : Cfg) (v : Vol) (kz : ℕ) : ℕ :=
  ((Finset.range cfg.nx ×ˢ Finset.range cfg.ny).filter
    (fun p => v kz p.1 p.2 ≠ 0)).card

/-! ### Concrete instances used by witnesses and counterexamples -/

/-- A frame with no atoms in any selection group. -/
def emptyAtoms : FrameAtoms := { memAll := [], memHead := [], prot := [], wat := [] }

def cfgC1w : Cfg := { dz := 1, dh := 1, nz := 2, nx := 1, ny := 1, split := false }

def fC1w : FrameAtoms :=
  { memAll := [], memHead := [{ x := 0, y := 0, z := 0, resid := 1, resname := "PC" }],
    prot := [{ x := 0, y := 0, z := 0, resid := 2, resname := "ALA" }],
    wat := [{ x := 0, y := 0, z := 0, resid := 3, resname := "SOL" }] }

def cfgC2x : Cfg := { dz := 5/2, dh := 1, nz := 1, nx := 1, ny := 1, split := false }

def fC2x : FrameAtoms :=
  { memAll := [], memHead := [{ x := 0, y := 0, z := 0, resid := 1, resname := "PC" }],
    prot := [], wat := [] }

def cfgC2w : Cfg := { dz := 3, dh := 1, nz := 1, nx := 1, ny := 1, split := false }

def cfgC3x : Cfg := { dz := 1, dh := 1, nz := 2, nx := 2, ny := 2, split := false }

def fC3x : FrameAtoms :=
  { memAll := [], memHead := [],
    prot := [{ x := 0, y := 0, z := -3/2, resid := 1, resname := "ALA" }], wat := [] }

def cfgC3w : Cfg := { dz := 1, dh := 1, nz := 1, nx := 1, ny := 1, split := true }

def aC3w : Atom := { x := 0, y := 0, z := -5, resid := 4, resname := "PC" }

def stC3w : MemSt :=
  { mem := vzero, mres := vzero, rl := fun _ => [], rzx := fun _ _ => [], warns := [] }

def cfgC4w : Cfg := { dz := 1, dh := 1, nz := 1, nx := 1, ny := 1, split := false }

def cfgC5w : Cfg := { dz := 1, dh := 1, nz := 1, nx := 1, ny := 1, split := false }

def fC5w : FrameAtoms :=
  { memAll := [], memHead := [{ x := 0, y := 0, z := 0, resid := 1, resname := "PC" }],
    prot := [], wat := [] }

def aC6x : Atom := { x := -3/2, y := 0, z := 0, resid := 1, resname := "PC" }

def aC6w : Atom := { x := -3/2, y := 1, z := 2, resid := 1, resname := "PC" }

def fC7w : Frame := { boxx := 40, boxy := 40, boxz := 40, atoms := emptyAtoms }

def cfgC9x : Cfg := { dz := 1, dh := 1, nz := 2, nx := 1, ny := 1, split := false }

def fC9x : FrameAtoms :=
  { memAll := [], memHead := [{ x := 0, y := 0, z := -3/2, resid := 7, resname := "PC" }],
    prot := [], wat := [] }

def cfgC10x : Cfg := { dz := 1, dh := 1, nz := 1, nx := 1, ny := 1, split := true }

def fC10x : FrameAtoms :=
  { memAll := [], memHead := [{ x := 5, y := 0, z := 0, resid := 3, resname := "PC" }],
    prot := [], wat := [] }

def cfgC10w : Cfg := { dz := 1, dh := 1, nz := 1, nx := 1, ny := 1, split := false }

def fC10w : FrameAtoms :=
  { memAll := [], memHead := [{ x := 0, y := 0, z := 0, resid := 3, resname := "PC" }],
    prot := [], wat := [] }

def cfgC8w : Cfg := { dz := 1, dh := 1, nz := 7, nx := 1, ny := 1, split := false }

def fC8w : FrameAtoms :=
  { memAll := [],
    memHead := [{ x := 0, y := 0, z := 2, resid := 1, resname := "PC" },
                { x := 0, y := 0, z := 3, resid := 202, resname := "PC" }],
    prot := [], wat := [] }

/-! ### Helper lemmas -/

theorem foldl_preserve {α σ : Type} (step : σ → α → σ) (P : σ → Prop)
    (h : ∀ s a, P s → P (step s a)) :
    ∀ (l : List α) (s : σ), P s → P (l.foldl step s) := by
  intro l
  induction l with
  | nil => intro s hs; exact hs
  | cons a t ih => intro s hs; exact ih (step s a) (h s a hs)

theorem pyInt_of_nonneg {q : ℚ} (h : 0 ≤ q) : pyInt q = ⌊q⌋ := if_pos h

theorem pyInt_of_neg {q : ℚ} (h : q < 0) : pyInt q = ⌈q⌉ := if_neg (not_le.mpr h)

theorem pyInt_nonneg {q : ℚ} (h : 0 ≤ q) : 0 ≤ pyInt q := by
  rw [pyInt_of_nonneg h]; exact Int.floor_nonneg.mpr h

theorem npIdx_lt {n : ℕ} {i : ℤ} {k : ℕ} (h : npIdx n i = some k) : k < n := by
  unfold npIdx at h
  split at h
  · rename_i h1
    cases h
    omega
  · split at h
    · rename_i h1 h2
      cases h
      omega
    · cases h

theorem npPos_eq_some {cfg : Cfg} {t : ℤ × ℤ × ℤ} {p : ℕ × ℕ × ℕ}
    (h : npPos cfg t = some p) :
    npIdx cfg.nz t.1 = some p.1 ∧ npIdx cfg.nx t.2.1 = some p.2.1 ∧
      npIdx cfg.ny t.2.2 = some p.2.2 := by
  unfold npPos at h
  split at h
  · rename_i kz kx ky h1 h2 h3
    cases h
    exact ⟨h1, h2, h3⟩
  · cases h

theorem vget_vset (v : Vol) (p q : ℕ × ℕ × ℕ) (val : ℕ) :
    vget (vset v p val) q =
      if q.1 = p.1 ∧ q.2.1 = p.2.1 ∧ q.2.2 = p.2.2 then val else vget v q := rfl

theorem vget_vzero (p : ℕ × ℕ × ℕ) : vget vzero p = 0 := rfl

theorem listSumRange (n : ℕ) (f : ℕ → ℕ) :
    ((List.range n).map f).sum = ∑ i ∈ Finset.range n, f i := by
  induction n with
  | zero => simp
  | succ m ih => rw [List.range_succ, List.map_append, List.sum_append,
      Finset.sum_range_succ, ih]; simp

theorem filterLenRange (n : ℕ) (p : ℕ → Bool) :
    ((List.range n).filter p).length = ∑ i ∈ Finset.range n, if p i then 1 else 0 := by
  induction n with
  | zero => simp
  | succ m ih =>
    rw [List.range_succ, List.filter_append, List.length_append,
      Finset.sum_range_succ, ih]
    by_cases hp : p m = true
    · simp [hp]
    · simp [hp]

theorem countNZ_eq_cardNZ (cfg : Cfg) (v : Vol) (kz : ℕ) :
    countNZ cfg v kz = cardNZ cfg v kz := by
  unfold countNZ cardNZ
  rw [listSumRange, Finset.card_filter, Finset.sum_product]
  refine Finset.sum_congr rfl (fun kx _ => ?_)
  rw [filterLenRange]
  refine Finset.sum_congr rfl (fun ky _ => ?_)
  by_cases h : v kz kx ky = 0
  · simp [h]
  · simp [h]

theorem cardNZ_le (cfg : Cfg) (v : Vol) (kz : ℕ) :
    cardNZ cfg v kz ≤ cfg.nx * cfg.ny := by
  unfold cardNZ
  calc ((Finset.range cfg.nx ×ˢ Finset.range cfg.ny).filter
          (fun p => v kz p.1 p.2 ≠ 0)).card
      ≤ (Finset.range cfg.nx ×ˢ Finset.range cfg.ny).card := Finset.card_filter_le _ _
    _ = cfg.nx * cfg.ny := by rw [Finset.card_product, Finset.card_range, Finset.card_range]

theorem areaInt_facts (cfg : Cfg) (v : Vol) (kz : ℕ) :
    areaInt cfg (countNZ cfg v kz) = ⌊(cardNZ cfg v kz : ℚ) * cfg.dz ^ 2⌋ ∧
    0 ≤ areaInt cfg (countNZ cfg v kz) ∧
    (areaInt cfg (countNZ cfg v kz) : ℚ) ≤ (cfg.nx : ℚ) * (cfg.ny : ℚ) * cfg.dz ^ 2 ∧
    (∀ m : ℤ, cfg.dz ^ 2 = (m : ℚ) →
      (areaInt cfg (countNZ cfg v kz) : ℚ) = (cardNZ cfg v kz : ℚ) * cfg.dz ^ 2) := by
  have harg : (countNZ cfg v kz : ℚ) * cfg.dz * cfg.dz =
      (cardNZ cfg v kz : ℚ) * cfg.dz ^ 2 := by
    rw [countNZ_eq_cardNZ]; ring
  have hnn : (0 : ℚ) ≤ (cardNZ cfg v kz : ℚ) * cfg.dz ^ 2 :=
    mul_nonneg (Nat.cast_nonneg _) (sq_nonneg _)
  have hfl : areaInt cfg (countNZ cfg v kz) = ⌊(cardNZ cfg v kz : ℚ) * cfg.dz ^ 2⌋ := by
    unfold areaInt
    rw [harg, pyInt_of_nonneg hnn]
  refine ⟨hfl, ?_, ?_, ?_⟩
  · rw [hfl]; exact Int.floor_nonneg.mpr hnn
  · rw [hfl]
    calc ((⌊(cardNZ cfg v kz : ℚ) * cfg.dz ^ 2⌋ : ℤ) : ℚ)
        ≤ (cardNZ cfg v kz : ℚ) * cfg.dz ^ 2 := Int.floor_le _
      _ ≤ ((cfg.nx * cfg.ny : ℕ) : ℚ) * cfg.dz ^ 2 := by
          exact mul_le_mul_of_nonneg_right
            (by exact_mod_cast cardNZ_le cfg v kz) (sq_nonneg _)
      _ = (cfg.nx : ℚ) * (cfg.ny : ℚ) * cfg.dz ^ 2 := by push_cast; ring
  · intro m hm
    rw [hfl, hm]
    have : (cardNZ cfg v kz : ℚ) * (m : ℚ) = ((cardNZ cfg v kz * m : ℤ) : ℚ) := by
      push_cast; ring
    rw [this, Int.floor_intCast]

theorem foldlAppendMap {α β : Type} (g : α → β) :
    ∀ (l : List α) (acc : List β),
      l.foldl (fun acc x => acc ++ [g x]) acc = acc ++ l.map g := by
  intro l
  induction l with
  | nil => intro acc; simp
  | cons a t ih => intro acc; rw [List.foldl_cons, ih, List.map_cons]; simp

theorem evalC5_cell :
    cellIdx 1 1 ({ x := 0, y := 0, z := 0, resid := 1, resname := "PC" } : Atom) =
      (0, 0, 0) := by
  norm_num [cellIdx, pyInt]

theorem evalC5_residArr : (getInfoFrame cfgC5w fC5w).residArr 0 = 1 := by
  show ((membranePhase cfgC5w fC5w.memAll fC5w.memHead).rl 0).length = 1
  simp [membranePhase, cfgC5w, fC5w, memSameStep, evalC5_cell, npPos, npIdx, regResid]

theorem evalC5_memSum : slabSum cfgC5w (getInfoFrame cfgC5w fC5w).mem 0 = 1 := by
  show slabSum cfgC5w (membranePhase cfgC5w fC5w.memAll fC5w.memHead).mem 0 = 1
  simp [slabSum, membranePhase, cfgC5w, fC5w, memSameStep, evalC5_cell, npPos, npIdx,
    regResid, vset, vget, vzero, List.range_succ]

theorem evalC5_protArea : (getInfoFrame cfgC5w fC5w).protArea 0 = 0 := by
  show areaInt cfgC5w (countNZ cfgC5w vzero 0) = 0
  rw [show countNZ cfgC5w vzero 0 = 0 from by decide]
  norm_num [areaInt, pyInt, cfgC5w]

theorem evalC5_areaM : areaM cfgC5w (getInfoFrame cfgC5w fC5w) 0 = 1 := by
  unfold areaM areaXY
  rw [evalC5_protArea]
  norm_num [cfgC5w]

theorem evalC5_dens : dens_m cfgC5w (getInfoFrame cfgC5w fC5w) 0 = 1 := by
  unfold dens_m
  rw [if_pos ⟨by rw [evalC5_areaM]; norm_num, by rw [evalC5_residArr]; norm_num⟩,
    evalC5_memSum, evalC5_areaM]
  norm_num

theorem protStep_inv (cfg : Cfg) (mem : Vol) (s : Vol × List Warning) (a : Atom)
    (hs : ∀ p, 0 < vget mem p → vget s.1 p = 0) :
    ∀ p, 0 < vget mem p → vget (protStep cfg mem s a).1 p = 0 := by
  intro p hp
  simp only [protStep]
  cases h : npPos cfg (cellIdx cfg.dz cfg.dh a) with
  | none => exact hs p hp
  | some q =>
    dsimp only
    by_cases hz : vget mem q = 0
    · rw [if_pos hz, vget_vset, if_neg]
      · exact hs p hp
      · rintro ⟨e1, e2, e3⟩
        have hpq : p = q := by
          rcases p with ⟨p1, p2, p3⟩
          rcases q with ⟨q1, q2, q3⟩
          simp only at e1 e2 e3
          simp [e1, e2, e3]
        rw [hpq, hz] at hp
        exact absurd hp (lt_irrefl 0)
    · rw [if_neg hz]
      exact hs p hp

theorem watStep_inv (cfg : Cfg) (mem prot : Vol) (w : Vol) (a : Atom)
    (hw : ∀ p, ((0 < vget mem p ∨ 0 < vget prot p) → vget w p = 0) ∧ vget w p ≤ 1) :
    ∀ p, ((0 < vget mem p ∨ 0 < vget prot p) → vget (watStep cfg mem prot w a) p = 0) ∧
      vget (watStep cfg mem prot w a) p ≤ 1 := by
  intro p
  simp only [watStep]
  cases h : npPos cfg (cellIdx cfg.dz cfg.dh a) with
  | none => exact hw p
  | some q =>
    dsimp only
    by_cases hz : vget prot q = 0 ∧ vget mem q = 0
    · rw [if_pos hz]
      constructor
      · intro hor
        rw [vget_vset, if_neg]
        · exact (hw p).1 hor
        · rintro ⟨e1, e2, e3⟩
          have hpq : p = q := by
            rcases p with ⟨p1, p2, p3⟩
            rcases q with ⟨q1, q2, q3⟩
            simp only at e1 e2 e3
            simp [e1, e2, e3]
          rw [hpq] at hor
          rcases hor with hm | hp2
          · rw [hz.2] at hm; exact absurd hm (lt_irrefl 0)
          · rw [hz.1] at hp2; exact absurd hp2 (lt_irrefl 0)
      · rw [vget_vset]
        split
        · exact le_refl 1
        · exact (hw p).2
    · rw [if_neg hz]
      exact hw p

/-! ### Claim C1 — exclusion invariant -/

/-- C1: for every frame and every grid cell, if the membrane-all occupancy
count is positive the protein count at that cell is 0; if the membrane or
protein count is positive the water mark at that cell is 0; and the water
mark only takes the binary values 0 and 1 (`Get_info`, lines 386-407). -/
theorem exclusion_invariant (cfg : Cfg) (f : FrameAtoms) (kz kx ky : ℕ) :
    (0 < (getInfoFrame cfg f).mem kz kx ky → (getInfoFrame cfg f).prot kz kx ky = 0) ∧
    ((0 < (getInfoFrame cfg f).mem kz kx ky ∨ 0 < (getInfoFrame cfg f).prot kz kx ky) →
      (getInfoFrame cfg f).wat kz kx ky = 0) ∧
    (getInfoFrame cfg f).wat kz kx ky ≤ 1 := by
  have hprot : ∀ p, 0 < vget (membranePhase cfg f.memAll f.memHead).mem p →
      vget (f.prot.foldl (protStep cfg (membranePhase cfg f.memAll f.memHead).mem)
        (vzero, (membranePhase cfg f.memAll f.memHead).warns)).1 p = 0 := by
    refine foldl_preserve (protStep cfg (membranePhase cfg f.memAll f.memHead).mem)
      (fun s => ∀ p, 0 < vget (membranePhase cfg f.memAll f.memHead).mem p →
        vget s.1 p = 0)
      (fun s a hs => protStep_inv cfg _ s a hs) f.prot
      (vzero, (membranePhase cfg f.memAll f.memHead).warns) ?_
    intro p hp
    rfl
  have hwat : ∀ p,
      ((0 < vget (membranePhase cfg f.memAll f.memHead).mem p ∨
          0 < vget (getInfoFrame cfg f).prot p) →
        vget (f.wat.foldl (watStep cfg (membranePhase cfg f.memAll f.memHead).mem
          (getInfoFrame cfg f).prot) vzero) p = 0) ∧
      vget (f.wat.foldl (watStep cfg (membranePhase cfg f.memAll f.memHead).mem
        (getInfoFrame cfg f).prot) vzero) p ≤ 1 := by
    refine foldl_preserve (watStep cfg (membranePhase cfg f.memAll f.memHead).mem
        (getInfoFrame cfg f).prot)
      (fun w => ∀ p,
        ((0 < vget (membranePhase cfg f.memAll f.memHead).mem p ∨
            0 < vget (getInfoFrame cfg f).prot p) → vget w p = 0) ∧ vget w p ≤ 1)
      (fun w a hw => watStep_inv cfg _ _ w a hw) f.wat vzero ?_
    intro p
    exact ⟨fun _ => rfl, Nat.zero_le 1⟩
  exact ⟨fun hm => hprot (kz, kx, ky) hm,
         fun hor => (hwat (kz, kx, ky)).1 hor,
         (hwat (kz, kx, ky)).2⟩

/-- C1 witness: a frame with a membrane atom, a protein atom and a water
atom all mapping to cell `(0,0,0)`. -/
theorem exclusion_invariant_witness :
    (getInfoFrame cfgC1w fC1w).prot 0 0 0 = 0 ∧ (getInfoFrame cfgC1w fC1w).wat 0 0 0 = 0 :=
  ⟨(exclusion_invariant cfgC1w fC1w 0 0 0).1
      (by simp [getInfoFrame, membranePhase, cfgC1w, fC1w, memSameStep, evalC5_cell,
        npPos, npIdx, regResid, vset, vget, vzero]),
   (exclusion_invariant cfgC1w fC1w 0 0 0).2.1
      (Or.inl (by simp [getInfoFrame, membranePhase, cfgC1w, fC1w, memSameStep, evalC5_cell,
        npPos, npIdx, regResid, vset, vget, vzero]))⟩

/-! ### Claim C3 — out-of-range atoms -/

/-- C3 counterexample: the claim says an atom whose computed index falls
outside `[0,nz)×[0,nx)×[0,ny)` is skipped and a warning is emitted.  But a
protein atom at `z = -3/2` (index `iz = -1`, outside `[0,nz)`) is silently
counted into the wrapped cell `(nz-1, 0, 0)` by numpy's negative-index
semantics: its occupancy volume is incremented and no warning is printed. -/
theorem out_of_range_wrap_counterexample :
    (getInfoFrame cfgC3x fC3x).prot 1 0 0 = 1 ∧ (getInfoFrame cfgC3x fC3x).warns = [] := by
  have hpy : pyInt ((-3/2 : ℚ) / 1) = -1 := by
    rw [show ((-3/2 : ℚ) / 1) = -(3/2) by norm_num, pyInt_of_neg (by norm_num),
      Int.ceil_neg]
    norm_num
  have hpy0 : pyInt ((0 : ℚ) / 1) = 0 := by
    rw [pyInt_of_nonneg (by norm_num)]
    norm_num
  have hcell : cellIdx 1 1 ({ x := 0, y := 0, z := -3/2, resid := 1, resname := "ALA" } :
      Atom) = (-1, 0, 0) := by
    show (pyInt ((-3/2 : ℚ) / 1), pyInt ((0 : ℚ) / 1), pyInt ((0 : ℚ) / 1)) =
      ((-1 : ℤ), (0 : ℤ), (0 : ℤ))
    rw [hpy, hpy0]
  constructor
  · show (List.foldl (protStep cfgC3x (membranePhase cfgC3x fC3x.memAll fC3x.memHead).mem)
      (vzero, (membranePhase cfgC3x fC3x.memAll fC3x.memHead).warns) fC3x.prot).1 1 0 0 = 1
    simp [fC3x, cfgC3x, protStep, hcell, npPos, npIdx, membranePhase, vset, vget, vzero]
  · show (List.foldl (protStep cfgC3x (membranePhase cfgC3x fC3x.memAll fC3x.memHead).mem)
      (vzero, (membranePhase cfgC3x fC3x.memAll fC3x.memHead).warns) fC3x.prot).2 = []
    simp [fC3x, cfgC3x, protStep, hcell, npPos, npIdx, membranePhase, vset, vget, vzero]

/-- C3 (amended): an atom whose computed index fails numpy's *wrapped*
range check (some axis index outside `[-n, n)`) is skipped by the volume
passes and processing continues: the membrane-all and protein passes leave
their volume unchanged and print a warning carrying the residue name,
position and computed index; the water pass and the head-subset volume
pass skip silently; an index inside `[-n, 0)` is *not* skipped but counted
at the wrapped cell.  In the split-selection branch the residue
registration is untouched only when the z index itself fails the wrapped
check (a valid z index registers the residue per z even when x is out of
range). -/
theorem out_of_range_policy_amended (cfg : Cfg) (a : Atom)
    (hout : npPos cfg (cellIdx cfg.dz cfg.dh a) = none) :
    (∀ s : Vol × List Warning,
        memAllStep cfg s a = (s.1, s.2 ++ [warnOf a (cellIdx cfg.dz cfg.dh a)])) ∧
    (∀ st : MemSt,
        memSameStep cfg st a =
          { st with warns := st.warns ++ [warnOf a (cellIdx cfg.dz cfg.dh a)] }) ∧
    (∀ (mem : Vol) (s : Vol × List Warning),
        protStep cfg mem s a = (s.1, s.2 ++ [warnOf a (cellIdx cfg.dz cfg.dh a)])) ∧
    (∀ mem prot w : Vol, watStep cfg mem prot w a = w) ∧
    (∀ st : MemSt, (memHeadSplitStep cfg st a).mres = st.mres ∧
        (memHeadSplitStep cfg st a).mem = st.mem ∧
        (memHeadSplitStep cfg st a).warns = st.warns) ∧
    (npIdx cfg.nz (cellIdx cfg.dz cfg.dh a).1 = none →
      ∀ st : MemSt, (memHeadSplitStep cfg st a).rl = st.rl ∧
        (memHeadSplitStep cfg st a).rzx = st.rzx) := by
  refine ⟨fun s => ?_, fun st => ?_, fun mem s => ?_, fun mem prot w => ?_,
    fun st => ?_, fun hiz st => ?_⟩
  · simp only [memAllStep, hout]
  · simp only [memSameStep, hout]
  · simp only [protStep, hout]
  · simp only [watStep, hout]
  · simp only [memHeadSplitStep, hout]
    exact ⟨trivial, trivial, trivial⟩
  · simp only [memHeadSplitStep, regResid, hiz]
    exact ⟨trivial, trivial⟩

/-- C3 witness: evaluation of the amended theorem at an atom whose z index
`-5` is outside even the wrapped range of a one-slab grid. -/
theorem out_of_range_policy_amended_witness :
    watStep cfgC3w vzero vzero vzero aC3w = vzero ∧
    (memHeadSplitStep cfgC3w stC3w aC3w).mres = stC3w.mres ∧
    (memHeadSplitStep cfgC3w stC3w aC3w).rl = stC3w.rl := by
  have hpy5 : pyInt ((-5 : ℚ) / 1) = -5 := by
    rw [show ((-5 : ℚ) / 1) = ((-5 : ℤ) : ℚ) by norm_num, pyInt_of_neg (by norm_num),
      Int.ceil_intCast]
  have hpy0 : pyInt ((0 : ℚ) / 1) = 0 := by
    rw [pyInt_of_nonneg (by norm_num)]
    norm_num
  have hcell : cellIdx cfgC3w.dz cfgC3w.dh aC3w = (-5, 0, 0) := by
    show (pyInt ((-5 : ℚ) / 1), pyInt ((0 : ℚ) / 1), pyInt ((0 : ℚ) / 1)) =
      ((-5 : ℤ), (0 : ℤ), (0 : ℤ))
    rw [hpy5, hpy0]
  have hout : npPos cfgC3w (cellIdx cfgC3w.dz cfgC3w.dh aC3w) = none := by
    rw [hcell]
    decide
  have hiz : npIdx cfgC3w.nz (cellIdx cfgC3w.dz cfgC3w.dh aC3w).1 = none := by
    rw [hcell]
    decide
  obtain ⟨_, _, _, h4, h5, h6⟩ := out_of_range_policy_amended cfgC3w aC3w hout
  exact ⟨h4 vzero vzero vzero, (h5 stC3w).1, (h6 hiz stC3w).1⟩

theorem regResid_rl (cfg : Cfg) (rl : ℕ → List ℤ) (rzx : ℕ → ℕ → List ℤ)
    (iz ix : ℤ) (n : ℤ) (k : ℕ) :
    (regResid cfg rl rzx iz ix n).1 k =
      if npIdx cfg.nz iz = some k ∧ n ∉ rl k then rl k ++ [n] else rl k := by
  cases h : npIdx cfg.nz iz with
  | none => simp [regResid, h]
  | some kz =>
    by_cases hm : n ∈ rl kz
    · simp only [regResid, h]
      rw [if_pos hm]
      rw [if_neg]
      rintro ⟨h1, h2⟩
      injection h1 with h1
      subst h1
      exact h2 hm
    · cases h2 : npIdx cfg.nx ix with
      | none =>
        simp only [regResid, h, h2]
        rw [if_neg hm]
        by_cases hk : k = kz
        · subst hk
          simp [hm]
        · simp [hk, Ne.symm hk]
      | some kx =>
        simp only [regResid, h, h2]
        rw [if_neg hm]
        by_cases hk : k = kz
        · subst hk
          simp [hm]
        · simp [hk, Ne.symm hk]

theorem regResid_rzx_sum (cfg : Cfg) (rl : ℕ → List ℤ) (rzx : ℕ → ℕ → List ℤ)
    (iz ix : ℤ) (n : ℤ) (k : ℕ) :
    (∑ kx ∈ Finset.range cfg.nx, ((regResid cfg rl rzx iz ix n).2 k kx).length) =
      (∑ kx ∈ Finset.range cfg.nx, (rzx k kx).length) +
        (if (npIdx cfg.nz iz = some k ∧ n ∉ rl k) ∧ (npIdx cfg.nx ix).isSome = true
          then 1 else 0) := by
  cases h : npIdx cfg.nz iz with
  | none => simp [regResid, h]
  | some kz =>
    by_cases hm : n ∈ rl kz
    · simp only [regResid, h]
      rw [if_pos hm]
      rw [if_neg]
      · simp
      rintro ⟨⟨h1, h2⟩, _⟩
      injection h1 with h1
      subst h1
      exact h2 hm
    · cases h2 : npIdx cfg.nx ix with
      | none =>
        simp only [regResid, h, h2]
        rw [if_neg hm]
        simp
      | some kx =>
        simp only [regResid, h, h2]
        rw [if_neg hm]
        have hkx : kx < cfg.nx := npIdx_lt h2
        by_cases hk : k = kz
        · subst hk
          have hterm : ∀ j,
              (if k = k ∧ j = kx then rzx k kx ++ [n] else rzx k j).length =
                (rzx k j).length + (if j = kx then 1 else 0) := by
            intro j
            by_cases hj : j = kx
            · subst hj; simp
            · simp [hj]
          rw [Finset.sum_congr rfl (fun j _ => hterm j), Finset.sum_add_distrib,
            Finset.sum_ite_eq' (Finset.range cfg.nx) kx (fun _ => 1)]
          simp [Finset.mem_range.mpr hkx, hm]
        · have hterm : ∀ j,
              (if k = kz ∧ j = kx then rzx kz kx ++ [n] else rzx k j).length =
                (rzx k j).length := by
            intro j
            simp [hk]
          rw [Finset.sum_congr rfl (fun j _ => hterm j)]
          simp [hk, Ne.symm hk]

theorem memHeadSplitStep_rl (cfg : Cfg) (st : MemSt) (a : Atom) (k : ℕ) :
    (memHeadSplitStep cfg st a).rl k =
      if npIdx cfg.nz (cellIdx cfg.dz cfg.dh a).1 = some k ∧ a.resid ∉ st.rl k
      then st.rl k ++ [a.resid] else st.rl k := by
  show (regResid cfg st.rl st.rzx (cellIdx cfg.dz cfg.dh a).1
    (cellIdx cfg.dz cfg.dh a).2.1 a.resid).1 k = _
  exact regResid_rl cfg st.rl st.rzx _ _ a.resid k

theorem memHeadSplitStep_rzx_sum (cfg : Cfg) (st : MemSt) (a : Atom) (k : ℕ) :
    (∑ kx ∈ Finset.range cfg.nx, ((memHeadSplitStep cfg st a).rzx k kx).length) =
      (∑ kx ∈ Finset.range cfg.nx, (st.rzx k kx).length) +
        (if (npIdx cfg.nz (cellIdx cfg.dz cfg.dh a).1 = some k ∧ a.resid ∉ st.rl k) ∧
            (npIdx cfg.nx (cellIdx cfg.dz cfg.dh a).2.1).isSome = true then 1 else 0) := by
  show (∑ kx ∈ Finset.range cfg.nx, ((regResid cfg st.rl st.rzx
      (cellIdx cfg.dz cfg.dh a).1 (cellIdx cfg.dz cfg.dh a).2.1 a.resid).2 k kx).length) = _
  exact regResid_rzx_sum cfg st.rl st.rzx _ _ a.resid k

theorem memSameStep_rl (cfg : Cfg) (st : MemSt) (a : Atom) (k : ℕ) :
    (memSameStep cfg st a).rl k =
      if ((npPos cfg (cellIdx cfg.dz cfg.dh a)).isSome = true ∧
          npIdx cfg.nz (cellIdx cfg.dz cfg.dh a).1 = some k) ∧ a.resid ∉ st.rl k
      then st.rl k ++ [a.resid] else st.rl k := by
  cases h : npPos cfg (cellIdx cfg.dz cfg.dh a) with
  | none => simp [memSameStep, h]
  | some p =>
    simp only [memSameStep, h]
    rw [regResid_rl]
    simp

theorem memSameStep_rzx_sum (cfg : Cfg) (st : MemSt) (a : Atom) (k : ℕ) :
    (∑ kx ∈ Finset.range cfg.nx, ((memSameStep cfg st a).rzx k kx).length) =
      (∑ kx ∈ Finset.range cfg.nx, (st.rzx k kx).length) +
        (if (((npPos cfg (cellIdx cfg.dz cfg.dh a)).isSome = true ∧
            npIdx cfg.nz (cellIdx cfg.dz cfg.dh a).1 = some k) ∧ a.resid ∉ st.rl k) ∧
            true = true then 1 else 0) := by
  cases h : npPos cfg (cellIdx cfg.dz cfg.dh a) with
  | none => simp [memSameStep, h]
  | some p =>
    obtain ⟨h1, h2, h3⟩ := npPos_eq_some h
    simp only [memSameStep, h]
    rw [regResid_rzx_sum]
    simp [h2]

/-- The source's registration condition, as a `Bool`-valued condition on
an atom and a slab, split by selection branch (see `headRegB`). -/
theorem headReg_iff_split (cfg : Cfg) (hs : cfg.split = true) (a : Atom) (k : ℕ) :
    headRegB cfg a k = true ↔
      npIdx cfg.nz (cellIdx cfg.dz cfg.dh a).1 = some k := by
  simp [headRegB, hs]

theorem headReg_iff_same (cfg : Cfg) (hs : cfg.split = false) (a : Atom) (k : ℕ) :
    headRegB cfg a k = true ↔
      ((npPos cfg (cellIdx cfg.dz cfg.dh a)).isSome = true ∧
        npIdx cfg.nz (cellIdx cfg.dz cfg.dh a).1 = some k) := by
  cases h : npPos cfg (cellIdx cfg.dz cfg.dh a) with
  | none => simp [headRegB, hs, h]
  | some p =>
    obtain ⟨h1, _, _⟩ := npPos_eq_some h
    simp [headRegB, hs, h, h1]

theorem fold_rl (cfg : Cfg) (step : MemSt → Atom → MemSt) (Cb : Atom → ℕ → Bool)
    (hstep : ∀ st a k, (step st a).rl k =
      if Cb a k = true ∧ a.resid ∉ st.rl k then st.rl k ++ [a.resid] else st.rl k) :
    ∀ (l : List Atom) (st : MemSt) (k : ℕ), (st.rl k).Nodup →
      ((l.foldl step st).rl k).Nodup ∧
      ((l.foldl step st).rl k).toFinset =
        (st.rl k).toFinset ∪ ((l.filter (fun a => Cb a k)).map Atom.resid).toFinset := by
  intro l
  induction l with
  | nil =>
    intro st k h
    exact ⟨h, by simp⟩
  | cons a t ih =>
    intro st k hnd
    have hs := hstep st a k
    have hstf : ((step st a).rl k).toFinset =
        (st.rl k).toFinset ∪ (if Cb a k = true ∧ a.resid ∉ st.rl k
          then {a.resid} else ∅) := by
      rw [hs]
      split
      · simp [List.toFinset_append]
      · simp
    have hnd' : ((step st a).rl k).Nodup := by
      rw [hs]
      split
      · rename_i hcond
        rw [List.nodup_append]
        exact ⟨hnd, List.nodup_singleton _, by simpa using hcond.2⟩
      · exact hnd
    obtain ⟨ihn, ihf⟩ := ih (step st a) k hnd'
    refine ⟨ihn, ?_⟩
    rw [List.foldl_cons, ihf, hstf]
    by_cases hc : Cb a k = true
    · rw [List.filter_cons_of_pos (by simpa using hc), List.map_cons, List.toFinset_cons]
      by_cases hmem : a.resid ∈ st.rl k
      · rw [if_neg (by tauto)]
        ext r
        simp only [Finset.mem_union, Finset.union_empty, Finset.mem_insert,
          List.mem_toFinset]
        constructor
        · tauto
        · rintro (h | (h | h))
          · tauto
          · subst h; exact Or.inl hmem
          · tauto
      · rw [if_pos ⟨hc, hmem⟩]
        ext r
        simp only [Finset.mem_union, Finset.mem_insert, Finset.mem_singleton,
          List.mem_toFinset]
        tauto
    · rw [if_neg (by tauto), List.filter_cons_of_neg (by simpa using hc)]
      simp

theorem fold_sum_le (cfg : Cfg) (step : MemSt → Atom → MemSt) (Cb : Atom → ℕ → Bool)
    (Db : Atom → Bool)
    (hrl : ∀ st a k, (step st a).rl k =
      if Cb a k = true ∧ a.resid ∉ st.rl k then st.rl k ++ [a.resid] else st.rl k)
    (hsum : ∀ st a k, (∑ kx ∈ Finset.range cfg.nx, ((step st a).rzx k kx).length) =
      (∑ kx ∈ Finset.range cfg.nx, (st.rzx k kx).length) +
        (if (Cb a k = true ∧ a.resid ∉ st.rl k) ∧ Db a = true then 1 else 0)) :
    ∀ (l : List Atom) (st : MemSt) (k : ℕ),
      ((∑ kx ∈ Finset.range cfg.nx, (st.rzx k kx).length) ≤ (st.rl k).length →
        (∑ kx ∈ Finset.range cfg.nx, ((l.foldl step st).rzx k kx).length) ≤
          ((l.foldl step st).rl k).length) ∧
      ((∀ a ∈ l, Db a = true) →
        (∑ kx ∈ Finset.range cfg.nx, (st.rzx k kx).length) = (st.rl k).length →
        (∑ kx ∈ Finset.range cfg.nx, ((l.foldl step st).rzx k kx).length) =
          ((l.foldl step st).rl k).length) := by
  intro l
  induction l with
  | nil => intro st k; exact ⟨id, fun _ => id⟩
  | cons a t ih =>
    intro st k
    have hL : ((step st a).rl k).length = (st.rl k).length +
        (if Cb a k = true ∧ a.resid ∉ st.rl k then 1 else 0) := by
      rw [hrl]
      split
      · simp
      · simp
    constructor
    · intro hle
      rw [List.foldl_cons]
      refine (ih (step st a) k).1 ?_
      rw [hsum, hL]
      have hmono : (if (Cb a k = true ∧ a.resid ∉ st.rl k) ∧ Db a = true then 1 else 0) ≤
          (if Cb a k = true ∧ a.resid ∉ st.rl k then 1 else 0) := by
        by_cases hA : Cb a k = true ∧ a.resid ∉ st.rl k
        · simp only [if_pos hA]
          split
          · exact le_refl 1
          · exact Nat.zero_le 1
        · simp [hA]
      omega
    · intro hall heq
      rw [List.foldl_cons]
      refine (ih (step st a) k).2 (fun b hb => hall b (List.mem_cons_of_mem a hb)) ?_
      rw [hsum, hL, heq, hall a (List.mem_cons_self a t)]
      simp

/-! ### Claim C9 — per-z residue counts -/

/-- C9 counterexample: a head-subset atom at `z = -3/2` has index
`iz = -1`, outside `[0, nz)`, so the claim's count of in-range atoms for
slab `nz-1 = 1` is 0; but Python-list negative indexing registers its
residue id at slab 1, making the stored per-z residue count 1. -/
theorem resid_count_wrap_counterexample :
    (getInfoFrame cfgC9x fC9x).residArr 1 ≠ specInRangeCount cfgC9x fC9x 1 := by
  have hpy : pyInt ((-3/2 : ℚ) / 1) = -1 := by
    rw [show ((-3/2 : ℚ) / 1) = -(3/2) by norm_num, pyInt_of_neg (by norm_num),
      Int.ceil_neg]
    norm_num
  have hpy0 : pyInt ((0 : ℚ) / 1) = 0 := by
    rw [pyInt_of_nonneg (by norm_num)]
    norm_num
  have hcell : cellIdx 1 1 ({ x := 0, y := 0, z := -3/2, resid := 7, resname := "PC" } :
      Atom) = (-1, 0, 0) := by
    show (pyInt ((-3/2 : ℚ) / 1), pyInt ((0 : ℚ) / 1), pyInt ((0 : ℚ) / 1)) =
      ((-1 : ℤ), (0 : ℤ), (0 : ℤ))
    rw [hpy, hpy0]
  have h1 : (getInfoFrame cfgC9x fC9x).residArr 1 = 1 := by
    show ((membranePhase cfgC9x fC9x.memAll fC9x.memHead).rl 1).length = 1
    simp [membranePhase, cfgC9x, fC9x, memSameStep, hcell, npPos, npIdx, regResid]
  have h2 : specInRangeCount cfgC9x fC9x 1 = 0 := by
    simp [specInRangeCount, specInRangeB, fC9x, cfgC9x, hcell]
  rw [h1, h2]
  decide

/-- C9 (amended): the per-z residue count at slab `k` equals the number of
*distinct* residue ids among the head-subset atoms the source actually
registers at `k` — those whose z index resolves under numpy/Python wrapped
indexing to `k` (in the joint-selection branch the full 3D index must
resolve); registering the same residue id from several atoms in one slab
increments the count by exactly 1 (`Get_info`, lines 366-371 / 378-384). -/
theorem resid_count_distinct_amended (cfg : Cfg) (f : FrameAtoms) (k : ℕ) :
    (getInfoFrame cfg f).residArr k =
      ((f.memHead.filter (fun a => headRegB cfg a k)).map Atom.resid).toFinset.card := by
  show ((membranePhase cfg f.memAll f.memHead).rl k).length = _
  unfold membranePhase
  by_cases hs : cfg.split = true
  · rw [if_pos hs]
    obtain ⟨hn, hf⟩ := fold_rl cfg (memHeadSplitStep cfg) (headRegB cfg)
      (fun st a k => by
        rw [memHeadSplitStep_rl]
        exact (if_congr (and_congr_left' (headReg_iff_split cfg hs a k)) rfl rfl).symm)
      f.memHead
      { mem := (f.memAll.foldl (memAllStep cfg) (vzero, [])).1, mres := vzero,
        rl := fun _ => [], rzx := fun _ _ => [],
        warns := (f.memAll.foldl (memAllStep cfg) (vzero, [])).2 }
      k (by simp)
    rw [← List.toFinset_card_of_nodup hn, hf]
    simp
  · rw [if_neg hs]
    have hs2 : cfg.split = false := by revert hs; cases cfg.split <;> simp
    obtain ⟨hn, hf⟩ := fold_rl cfg (memSameStep cfg) (headRegB cfg)
      (fun st a k => by
        rw [memSameStep_rl]
        exact (if_congr (and_congr_left' (headReg_iff_same cfg hs2 a k)) rfl rfl).symm)
      f.memHead
      { mem := vzero, mres := vzero, rl := fun _ => [], rzx := fun _ _ => [],
        warns := [] }
      k (by simp)
    rw [← List.toFinset_card_of_nodup hn, hf]
    simp

/-! ### Claim C10 — per-(z,x) versus per-z residue counts -/

/-- C10 counterexample: in the split-selection branch a head-subset atom
with a valid z index but lateral index `ix = 5` outside the wrapped range
is registered in the per-z list (the `IndexError` strikes only at the
`resid_list_zx[iz][ix]` append), so the per-z count at slab 0 is 1 while
the per-(z,x) counts sum to 0. -/
theorem zx_sum_counterexample :
    (∑ kx ∈ Finset.range cfgC10x.nx, (getInfoFrame cfgC10x fC10x).residZX 0 kx) ≠
      (getInfoFrame cfgC10x fC10x).residArr 0 := by
  have hpy5 : pyInt ((5 : ℚ) / 1) = 5 := by
    rw [pyInt_of_nonneg (by norm_num)]
    norm_num
  have hpy0 : pyInt ((0 : ℚ) / 1) = 0 := by
    rw [pyInt_of_nonneg (by norm_num)]
    norm_num
  have hcell : cellIdx 1 1 ({ x := 5, y := 0, z := 0, resid := 3, resname := "PC" } :
      Atom) = (0, 5, 0) := by
    show (pyInt ((0 : ℚ) / 1), pyInt ((5 : ℚ) / 1), pyInt ((0 : ℚ) / 1)) =
      ((0 : ℤ), (5 : ℤ), (0 : ℤ))
    rw [hpy5, hpy0]
  have h1 : (getInfoFrame cfgC10x fC10x).residArr 0 = 1 := by
    show ((membranePhase cfgC10x fC10x.memAll fC10x.memHead).rl 0).length = 1
    simp [membranePhase, cfgC10x, fC10x, memHeadSplitStep, memAllStep, hcell, npPos,
      npIdx, regResid]
  have h2 : (∑ kx ∈ Finset.range cfgC10x.nx,
      (getInfoFrame cfgC10x fC10x).residZX 0 kx) = 0 := by
    show (∑ kx ∈ Finset.range cfgC10x.nx,
      ((membranePhase cfgC10x fC10x.memAll fC10x.memHead).rzx 0 kx).length) = 0
    simp [membranePhase, cfgC10x, fC10x, memHeadSplitStep, memAllStep, hcell, npPos,
      npIdx, regResid]
  rw [h1, h2]
  decide

/-- C10 (amended): for every frame and slab the per-(z,x) residue counts
summed over the lateral bins are at most the per-z residue count — a
residue id is registered in at most one x bin per slab, the bin of the
first atom of that residue registered in the slab — with equality in the
joint-selection branch, and in the split branch whenever every head-subset
atom's lateral index resolves under wrapped indexing. -/
theorem zx_sum_amended (cfg : Cfg) (f : FrameAtoms) (k : ℕ) :
    (∑ kx ∈ Finset.range cfg.nx, (getInfoFrame cfg f).residZX k kx) ≤
      (getInfoFrame cfg f).residArr k ∧
    ((cfg.split = false ∨ ∀ a ∈ f.memHead,
        (npIdx cfg.nx (cellIdx cfg.dz cfg.dh a).2.1).isSome = true) →
      (∑ kx ∈ Finset.range cfg.nx, (getInfoFrame cfg f).residZX k kx) =
        (getInfoFrame cfg f).residArr k) := by
  have key : (∑ kx ∈ Finset.range cfg.nx,
        ((membranePhase cfg f.memAll f.memHead).rzx k kx).length) ≤
        ((membranePhase cfg f.memAll f.memHead).rl k).length ∧
      ((cfg.split = false ∨ ∀ a ∈ f.memHead,
          (npIdx cfg.nx (cellIdx cfg.dz cfg.dh a).2.1).isSome = true) →
        (∑ kx ∈ Finset.range cfg.nx,
          ((membranePhase cfg f.memAll f.memHead).rzx k kx).length) =
          ((membranePhase cfg f.memAll f.memHead).rl k).length) := by
    unfold membranePhase
    by_cases hs : cfg.split = true
    · rw [if_pos hs]
      obtain ⟨hle, heq⟩ := fold_sum_le cfg (memHeadSplitStep cfg) (headRegB cfg)
        (fun a => (npIdx cfg.nx (cellIdx cfg.dz cfg.dh a).2.1).isSome)
        (fun st a k => by
          rw [memHeadSplitStep_rl]
          exact (if_congr (and_congr_left' (headReg_iff_split cfg hs a k)) rfl rfl).symm)
        (fun st a k => by
          rw [memHeadSplitStep_rzx_sum]
          congr 1
          exact (if_congr
            (and_congr_left' (and_congr_left' (headReg_iff_split cfg hs a k)))
            rfl rfl).symm)
        f.memHead
        { mem := (f.memAll.foldl (memAllStep cfg) (vzero, [])).1, mres := vzero,
          rl := fun _ => [], rzx := fun _ _ => [],
          warns := (f.memAll.foldl (memAllStep cfg) (vzero, [])).2 }
        k
      refine ⟨hle (by simp), fun hOr => ?_⟩
      rcases hOr with hfalse | hall
      · rw [hfalse] at hs
        cases hs
      · exact heq hall (by simp)
    · rw [if_neg hs]
      have hs2 : cfg.split = false := by revert hs; cases cfg.split <;> simp
      obtain ⟨hle, heq⟩ := fold_sum_le cfg (memSameStep cfg) (headRegB cfg)
        (fun _ => true)
        (fun st a k => by
          rw [memSameStep_rl]
          exact (if_congr (and_congr_left' (headReg_iff_same cfg hs2 a k)) rfl rfl).symm)
        (fun st a k => by
          rw [memSameStep_rzx_sum]
          congr 1
          exact (if_congr
            (and_congr_left' (and_congr_left' (headReg_iff_same cfg hs2 a k)))
            rfl rfl).symm)
        f.memHead
        { mem := vzero, mres := vzero, rl := fun _ => [], rzx := fun _ _ => [],
          warns := [] }
        k
      exact ⟨hle (by simp), fun _ => heq (fun _ _ => rfl) (by simp)⟩
  exact key

/-- C10 witness: in the joint-selection branch the equality holds
unconditionally; evaluation at a one-atom frame. -/
theorem zx_sum_amended_witness :
    (∑ kx ∈ Finset.range cfgC10w.nx, (getInfoFrame cfgC10w fC10w).residZX 0 kx) =
      (getInfoFrame cfgC10w fC10w).residArr 0 :=
  (zx_sum_amended cfgC10w fC10w 0).2 (Or.inl rfl)

theorem addMaps_length (A B : List Map2) :
    (addMaps A B).length = min A.length B.length := List.length_zipWith _ _ _

theorem winMaps_length (cfg : Cfg) (g : FrameResult → Vol) (r : FrameResult)
    (zs : List ℤ) : (winMaps cfg g r zs).length = zs.length := List.length_map _ _

theorem addMaps_getD (kx ky : ℕ) : ∀ (A B : List Map2) (i : ℕ),
    i < A.length → i < B.length →
    (addMaps A B).getD i (fun _ _ => 0) kx ky =
      A.getD i (fun _ _ => 0) kx ky + B.getD i (fun _ _ => 0) kx ky := by
  intro A
  induction A with
  | nil =>
    intro B i hA hB
    exact absurd hA (by simp)
  | cons a A2 ih =>
    intro B i hA hB
    cases B with
    | nil => exact absurd hB (by simp)
    | cons b B2 =>
      have hc : addMaps (a :: A2) (b :: B2) =
          (fun kx ky => a kx ky + b kx ky) :: addMaps A2 B2 := rfl
      cases i with
      | zero => rw [hc]; rfl
      | succ j =>
        rw [hc, List.getD_cons_succ, List.getD_cons_succ, List.getD_cons_succ]
        exact ih B2 j (by simpa using hA) (by simpa using hB)

theorem winMaps_getD (cfg : Cfg) (g : FrameResult → Vol) (r : FrameResult) :
    ∀ (zs : List ℤ) (i : ℕ), i < zs.length →
    (winMaps cfg g r zs).getD i (fun _ _ => 0) = slabWrap cfg (g r) (zs.getD i 0) := by
  intro zs
  induction zs with
  | nil =>
    intro i hi
    exact absurd hi (by simp)
  | cons z zs2 ih =>
    intro i hi
    have hc : winMaps cfg g r (z :: zs2) =
        slabWrap cfg (g r) z :: winMaps cfg g r zs2 := rfl
    cases i with
    | zero => rw [hc]; rfl
    | succ j =>
      rw [hc, List.getD_cons_succ, List.getD_cons_succ]
      exact ih j (by simpa using hi)

theorem accumW_getD (cfg : Cfg) (g : FrameResult → Vol) (zs : List ℤ) :
    ∀ (rs : List FrameResult) (acc : List Map2), acc.length = zs.length →
      ∀ i, i < zs.length → ∀ kx ky,
      (rs.foldl (fun acc r => addMaps acc (winMaps cfg g r zs)) acc).getD i
          (fun _ _ => 0) kx ky =
        acc.getD i (fun _ _ => 0) kx ky +
          (rs.map (fun r => slabWrap cfg (g r) (zs.getD i 0) kx ky)).sum := by
  intro rs
  induction rs with
  | nil =>
    intro acc h i hi kx ky
    simp
  | cons r t ih =>
    intro acc h i hi kx ky
    rw [List.foldl_cons,
      ih (addMaps acc (winMaps cfg g r zs))
        (by rw [addMaps_length, h, winMaps_length]; exact min_self _) i hi kx ky,
      addMaps_getD kx ky acc (winMaps cfg g r zs) i (by rw [h]; exact hi)
        (by rw [winMaps_length]; exact hi),
      winMaps_getD cfg g r zs i hi, List.map_cons, List.sum_cons]
    omega

theorem accumW_spec (cfg : Cfg) (g : FrameResult → Vol) (r0 : FrameResult)
    (rest : List FrameResult) (zs : List ℤ) (i : ℕ) (hi : i < zs.length)
    (kx ky : ℕ) :
    (accumW cfg g r0 rest zs).getD i (fun _ _ => 0) kx ky =
      ((r0 :: rest).map (fun r => slabWrap cfg (g r) (zs.getD i 0) kx ky)).sum := by
  rw [accumW, accumW_getD cfg g zs rest (winMaps cfg g r0 zs)
      (winMaps_length cfg g r0 zs) i hi kx ky,
    winMaps_getD cfg g r0 zs i hi, List.map_cons, List.sum_cons]

theorem firstNZ_spec (n : ℕ) (ra : ℕ → ℕ) (a : ℕ) (h : firstNZ n ra = some a) :
    a < n ∧ 0 < ra a ∧ ∀ j < a, ra j = 0 := by
  induction n with
  | zero => simp [firstNZ] at h
  | succ m ih =>
    rw [firstNZ, List.range_succ, List.filter_append] at h
    cases hfb : (List.range m).filter (fun k => decide (0 < ra k)) with
    | nil =>
      rw [hfb, List.nil_append] at h
      by_cases hp : 0 < ra m
      · have hsing : (List.filter (fun k => decide (0 < ra k)) [m]) = [m] := by
          simp [hp]
        rw [hsing] at h
        injection h with h
        subst h
        refine ⟨Nat.lt_succ_self _, hp, fun j hj => ?_⟩
        have hall : ∀ k ∈ List.range m, ¬(0 < ra k) := by
          intro k hk
          have := List.filter_eq_nil_iff.mp hfb k hk
          simpa using this
        have := hall j (List.mem_range.mpr hj)
        omega
      · have hnil : (List.filter (fun k => decide (0 < ra k)) [m]) = [] := by
          simp [hp]
        rw [hnil] at h
        simp at h
    | cons x xs =>
      rw [hfb, List.cons_append] at h
      have hx : x = a := by
        have : (x :: (xs ++ List.filter (fun k => decide (0 < ra k)) [m])).head? =
            some x := rfl
        rw [this] at h
        injection h
      have h' : firstNZ m ra = some a := by
        rw [firstNZ, hfb, ← hx]
        rfl
      obtain ⟨q1, q2, q3⟩ := ih h'
      exact ⟨Nat.lt_succ_of_lt q1, q2, q3⟩

theorem lastNZ_spec (n : ℕ) (ra : ℕ → ℕ) (b : ℕ) (h : lastNZ n ra = some b) :
    b < n ∧ 0 < ra b ∧ ∀ j, b < j → j < n → ra j = 0 := by
  induction n with
  | zero => simp [lastNZ] at h
  | succ m ih =>
    rw [lastNZ, List.range_succ, List.filter_append] at h
    by_cases hp : 0 < ra m
    · have hsing : (List.filter (fun k => decide (0 < ra k)) [m]) = [m] := by
        simp [hp]
      rw [hsing, List.getLast?_concat] at h
      injection h with h
      subst h
      exact ⟨Nat.lt_succ_self _, hp, fun j hj1 hj2 => by omega⟩
    · have hnil : (List.filter (fun k => decide (0 < ra k)) [m]) = [] := by
        simp [hp]
      rw [hnil, List.append_nil] at h
      have h' : lastNZ m ra = some b := by
        rw [lastNZ]
        exact h
      obtain ⟨q1, q2, q3⟩ := ih h'
      refine ⟨Nat.lt_succ_of_lt q1, q2, fun j hj1 hj2 => ?_⟩
      rcases Nat.lt_succ_iff_lt_or_eq.mp hj2 with hj | hj
      · exact q3 j hj1 hj
      · subst hj
        omega

/-! ### Claim C8 — the 2D-map z window -/

/-- C8: the z-slab window for 2D-map averaging is computed once from the
first processed frame's residue profile — `start_mem` is the first z index
with a nonzero residue count minus 2, `stop_mem` the last such index plus
2, with fixed step 2 — and every frame's 2D maps (membrane, head-subset,
protein) are accumulated at exactly those same z values: entry `i` of each
accumulated map is the sum over all frames of that frame's slab at the
window's `i`-th z value (`Prep4plot`, lines 462-465 and 499-514).  The
hypothesis `hz` pins the runs on which the source itself completes without
an uncaught `IndexError`. -/
theorem window_fixed_from_frame0 (cfg : Cfg) (r0 : FrameResult)
    (rest : List FrameResult) (a b : ℕ)
    (ha : firstNZ cfg.nz r0.residArr = some a)
    (hb : lastNZ cfg.nz r0.residArr = some b)
    (hz : ∀ z ∈ rangeZ ((a : ℤ) - 2) ((b : ℤ) + 2) 2,
      -(cfg.nz : ℤ) ≤ z ∧ z < (cfg.nz : ℤ)) :
    ∃ p : Prep2D, Prep4plot2D cfg r0 rest = some p ∧
      p.start_mem = (a : ℤ) - 2 ∧ p.stop_mem = (b : ℤ) + 2 ∧ p.step_mem = 2 ∧
      (a < cfg.nz ∧ 0 < r0.residArr a ∧ ∀ j < a, r0.residArr j = 0) ∧
      (b < cfg.nz ∧ 0 < r0.residArr b ∧ ∀ j, b < j → j < cfg.nz → r0.residArr j = 0) ∧
      (∀ i, i < (rangeZ ((a : ℤ) - 2) ((b : ℤ) + 2) 2).length → ∀ kx ky,
        p.mem_slab_frame.getD i (fun _ _ => 0) kx ky =
          ((r0 :: rest).map (fun r => slabWrap cfg r.mem
            ((rangeZ ((a : ℤ) - 2) ((b : ℤ) + 2) 2).getD i 0) kx ky)).sum ∧
        p.mem_resid_slab_frame.getD i (fun _ _ => 0) kx ky =
          ((r0 :: rest).map (fun r => slabWrap cfg r.mres
            ((rangeZ ((a : ℤ) - 2) ((b : ℤ) + 2) 2).getD i 0) kx ky)).sum ∧
        p.prot_slab_frame.getD i (fun _ _ => 0) kx ky =
          ((r0 :: rest).map (fun r => slabWrap cfg r.prot
            ((rangeZ ((a : ℤ) - 2) ((b : ℤ) + 2) 2).getD i 0) kx ky)).sum) := by
  obtain ⟨ha1, ha2, ha3⟩ := firstNZ_spec cfg.nz r0.residArr a ha
  obtain ⟨hb1, hb2, hb3⟩ := lastNZ_spec cfg.nz r0.residArr b hb
  refine ⟨⟨(a : ℤ) - 2, (b : ℤ) + 2, 2,
      accumW cfg (fun r => r.mem) r0 rest (rangeZ ((a : ℤ) - 2) ((b : ℤ) + 2) 2),
      accumW cfg (fun r => r.mres) r0 rest (rangeZ ((a : ℤ) - 2) ((b : ℤ) + 2) 2),
      accumW cfg (fun r => r.prot) r0 rest (rangeZ ((a : ℤ) - 2) ((b : ℤ) + 2) 2)⟩,
    ?_, rfl, rfl, rfl, ⟨ha1, ha2, ha3⟩, ⟨hb1, hb2, hb3⟩, ?_⟩
  · simp only [Prep4plot2D, ha, hb]
  · intro i hi kx ky
    exact ⟨accumW_spec cfg (fun r => r.mem) r0 rest _ i hi kx ky,
      accumW_spec cfg (fun r => r.mres) r0 rest _ i hi kx ky,
      accumW_spec cfg (fun r => r.prot) r0 rest _ i hi kx ky⟩

theorem evalC8_cell2 :
    cellIdx 1 1 ({ x := 0, y := 0, z := 2, resid := 1, resname := "PC" } : Atom) =
      (2, 0, 0) := by
  norm_num [cellIdx, pyInt]

theorem evalC8_cell3 :
    cellIdx 1 1 ({ x := 0, y := 0, z := 3, resid := 202, resname := "PC" } : Atom) =
      (3, 0, 0) := by
  norm_num [cellIdx, pyInt]

theorem evalC8_residArr (k : ℕ) :
    (getInfoFrame cfgC8w fC8w).residArr k =
      (if k = 3 then 1 else if k = 2 then 1 else 0) := by
  show ((membranePhase cfgC8w fC8w.memAll fC8w.memHead).rl k).length = _
  by_cases h3 : k = 3
  · subst h3
    simp [membranePhase, cfgC8w, fC8w, memSameStep, evalC8_cell2, evalC8_cell3,
      npPos, npIdx, regResid]
  · by_cases h2 : k = 2
    · subst h2
      simp [membranePhase, cfgC8w, fC8w, memSameStep, evalC8_cell2, evalC8_cell3,
        npPos, npIdx, regResid]
    · simp [membranePhase, cfgC8w, fC8w, memSameStep, evalC8_cell2, evalC8_cell3,
        npPos, npIdx, regResid, h2, h3]

theorem evalC8_first :
    firstNZ cfgC8w.nz (getInfoFrame cfgC8w fC8w).residArr = some 2 := by
  have hfc : (List.range cfgC8w.nz).filter
      (fun k => decide (0 < (getInfoFrame cfgC8w fC8w).residArr k)) =
      (List.range cfgC8w.nz).filter
      (fun k => decide (0 < (if k = 3 then 1 else if k = 2 then 1 else 0))) :=
    List.filter_congr (fun k _ => by rw [evalC8_residArr k])
  rw [firstNZ, hfc]
  decide

theorem evalC8_last :
    lastNZ cfgC8w.nz (getInfoFrame cfgC8w fC8w).residArr = some 3 := by
  have hfc : (List.range cfgC8w.nz).filter
      (fun k => decide (0 < (getInfoFrame cfgC8w fC8w).residArr k)) =
      (List.range cfgC8w.nz).filter
      (fun k => decide (0 < (if k = 3 then 1 else if k = 2 then 1 else 0))) :=
    List.filter_congr (fun k _ => by rw [evalC8_residArr k])
  rw [lastNZ, hfc]
  decide

/-- C8 witness: a two-atom frame whose residue profile is nonzero at slabs
2 and 3 of a 7-slab grid; the window `[0, 5)` step 2 stays in range. -/
theorem window_fixed_from_frame0_witness :
    Prep4plot2D cfgC8w (getInfoFrame cfgC8w fC8w) [] ≠ none := by
  obtain ⟨p, hp, -⟩ := window_fixed_from_frame0 cfgC8w (getInfoFrame cfgC8w fC8w) []
    2 3 evalC8_first evalC8_last (by decide)
  rw [hp]
  simp

/-! ### Claim C6 — cell indexing -/

/-- C6 counterexample: the claim says the cell index is computed by *floor*
division "including for negative coordinates", but the source uses Python's
`int()` cast, which truncates toward zero.  At `x = -3/2` with `dz = 3` the
code computes `ix = int(-1/2) = 0` while floor division gives `-1`. -/
theorem cell_index_floor_counterexample :
    cellIdx 3 3 aC6x ≠ floorIdx 3 3 aC6x := by
  have hx : aC6x.x / 3 = -(1/2 : ℚ) := by norm_num [aC6x]
  have htr : pyInt (aC6x.x / 3) = 0 := by
    rw [hx, pyInt_of_neg (by norm_num), Int.ceil_neg]
    norm_num
  have hfl : ⌊aC6x.x / 3⌋ = -1 := by
    rw [hx]
    norm_num
  intro h
  have h2 := congrArg (fun t : ℤ × ℤ × ℤ => t.2.1) h
  simp only [cellIdx, floorIdx] at h2
  rw [htr, hfl] at h2
  exact absurd h2 (by decide)

/-- C6 (amended): each component of the cell index is the *truncation
toward zero* of the coordinate divided by its axis's cell size — floor for
a nonnegative coordinate, ceiling for a negative one — with no rounding or
clamping; it agrees with floor division exactly when all coordinates are
nonnegative. -/
theorem cell_index_trunc_amended (dz dh : ℚ) (hdz : 0 < dz) (hdh : 0 < dh) (a : Atom) :
    ((0 ≤ a.z → (cellIdx dz dh a).1 = ⌊a.z / dh⌋) ∧
      (a.z < 0 → (cellIdx dz dh a).1 = ⌈a.z / dh⌉)) ∧
    ((0 ≤ a.x → (cellIdx dz dh a).2.1 = ⌊a.x / dz⌋) ∧
      (a.x < 0 → (cellIdx dz dh a).2.1 = ⌈a.x / dz⌉)) ∧
    ((0 ≤ a.y → (cellIdx dz dh a).2.2 = ⌊a.y / dz⌋) ∧
      (a.y < 0 → (cellIdx dz dh a).2.2 = ⌈a.y / dz⌉)) ∧
    (0 ≤ a.x ∧ 0 ≤ a.y ∧ 0 ≤ a.z → cellIdx dz dh a = floorIdx dz dh a) := by
  refine ⟨⟨fun h => pyInt_of_nonneg (div_nonneg h hdh.le),
           fun h => pyInt_of_neg (div_neg_of_neg_of_pos h hdh)⟩,
          ⟨fun h => pyInt_of_nonneg (div_nonneg h hdz.le),
           fun h => pyInt_of_neg (div_neg_of_neg_of_pos h hdz)⟩,
          ⟨fun h => pyInt_of_nonneg (div_nonneg h hdz.le),
           fun h => pyInt_of_neg (div_neg_of_neg_of_pos h hdz)⟩,
          fun h => ?_⟩
  unfold cellIdx floorIdx
  rw [pyInt_of_nonneg (div_nonneg h.2.2 hdh.le),
    pyInt_of_nonneg (div_nonneg h.1 hdz.le),
    pyInt_of_nonneg (div_nonneg h.2.1 hdz.le)]

/-- C6 witness: evaluation of the amended theorem at a concrete atom with
one negative and two nonnegative coordinates. -/
theorem cell_index_trunc_amended_witness :
    (cellIdx 3 3 aC6w).2.1 = ⌈aC6w.x / 3⌉ ∧ (cellIdx 3 3 aC6w).2.2 = ⌊aC6w.y / 3⌋ :=
  ⟨((cell_index_trunc_amended 3 3 (by norm_num) (by norm_num) aC6w).2.1).2
      (by norm_num [aC6w]),
   ((cell_index_trunc_amended 3 3 (by norm_num) (by norm_num) aC6w).2.2.1).1
      (by norm_num [aC6w])⟩

/-! ### Claim C4 — degenerate denominators -/

/-- C4: if the protein area of a slab is 0 the protein density is exactly 0,
and if the membrane denominator (total lateral area minus protein area) is
zero — or the residue count is zero — the membrane density is exactly 0
(`Prep4plot`, lines 470-497). -/
theorem degenerate_density_zero (cfg : Cfg) (r : FrameResult) (kz : ℕ) :
    (r.protArea kz = 0 → dens_p cfg r kz = 0) ∧
    (areaM cfg r kz = 0 ∨ r.residArr kz = 0 → dens_m cfg r kz = 0) := by
  constructor
  · intro h
    unfold dens_p
    rw [if_neg]
    rw [h]
    exact lt_irrefl 0
  · intro h
    unfold dens_m
    rw [if_neg]
    rintro ⟨h1, h2⟩
    rcases h with h | h
    · rw [h] at h1; exact lt_irrefl 0 h1
    · omega

/-- C4 witness: evaluation at a frame with no atoms at all. -/
theorem degenerate_density_zero_witness :
    dens_p cfgC4w (getInfoFrame cfgC4w emptyAtoms) 0 = 0 ∧
    dens_m cfgC4w (getInfoFrame cfgC4w emptyAtoms) 0 = 0 :=
  ⟨(degenerate_density_zero cfgC4w (getInfoFrame cfgC4w emptyAtoms) 0).1
      (by norm_num [getInfoFrame, membranePhase, cfgC4w, emptyAtoms, countNZ, vzero,
        areaInt, pyInt]),
   (degenerate_density_zero cfgC4w (getInfoFrame cfgC4w emptyAtoms) 0).2
      (Or.inr (by simp [getInfoFrame, membranePhase, cfgC4w, emptyAtoms]))⟩

/-! ### Claim C5 — area-per-residue threshold -/

/-- C5: the area-per-residue value is nonzero exactly when the recorded
membrane density exceeds 0.025 atoms/Å² and the residue count is positive
(the membrane-available area is then automatically positive), in which
case it equals (membrane-available area) / (residue count); in every other
case it is exactly 0 (`Prep4plot`, lines 484-497). -/
theorem area_per_residue_threshold (cfg : Cfg) (r : FrameResult) (kz : ℕ) :
    (m_r_per_area cfg r kz ≠ 0 →
      0.025 < dens_m cfg r kz ∧ 0 < r.residArr kz ∧ 0 < areaM cfg r kz ∧
        m_r_per_area cfg r kz = areaM cfg r kz / (r.residArr kz : ℚ)) ∧
    (0.025 < dens_m cfg r kz ∧ 0 < r.residArr kz →
      m_r_per_area cfg r kz = areaM cfg r kz / (r.residArr kz : ℚ) ∧
        m_r_per_area cfg r kz ≠ 0) ∧
    (¬(0.025 < dens_m cfg r kz ∧ 0 < r.residArr kz) → m_r_per_area cfg r kz = 0) := by
  by_cases h1 : 0 < areaM cfg r kz ∧ 0 < r.residArr kz
  · have hdm : dens_m cfg r kz = (slabSum cfg r.mem kz : ℚ) / areaM cfg r kz := by
      unfold dens_m; rw [if_pos h1]
    by_cases h2 : (0.025 : ℚ) < (slabSum cfg r.mem kz : ℚ) / areaM cfg r kz
    · have hm : m_r_per_area cfg r kz = areaM cfg r kz / (r.residArr kz : ℚ) := by
        unfold m_r_per_area; rw [if_pos h1, if_pos h2]
      have hpos : 0 < areaM cfg r kz / (r.residArr kz : ℚ) :=
        div_pos h1.1 (by exact_mod_cast h1.2)
      have hne : m_r_per_area cfg r kz ≠ 0 := by rw [hm]; exact ne_of_gt hpos
      exact ⟨fun _ => ⟨by rw [hdm]; exact h2, h1.2, h1.1, hm⟩,
             fun _ => ⟨hm, hne⟩,
             fun hc => absurd ⟨by rw [hdm]; exact h2, h1.2⟩ hc⟩
    · have hm : m_r_per_area cfg r kz = 0 := by
        unfold m_r_per_area; rw [if_pos h1, if_neg h2]
      refine ⟨fun hne => absurd hm hne, fun hc => ?_, fun _ => hm⟩
      exfalso
      rw [hdm] at hc
      exact h2 hc.1
  · have hm : m_r_per_area cfg r kz = 0 := by unfold m_r_per_area; rw [if_neg h1]
    have hdm : dens_m cfg r kz = 0 := by unfold dens_m; rw [if_neg h1]
    refine ⟨fun hne => absurd hm hne, fun hc => ?_, fun _ => hm⟩
    exfalso
    rw [hdm] at hc
    norm_num at hc

/-- C5 witness: a frame whose single membrane atom yields a recorded
membrane density of 1 atoms/Å² in slab 0, above the 0.025 threshold. -/
theorem area_per_residue_threshold_witness :
    m_r_per_area cfgC5w (getInfoFrame cfgC5w fC5w) 0 =
      areaM cfgC5w (getInfoFrame cfgC5w fC5w) 0 /
        ((getInfoFrame cfgC5w fC5w).residArr 0 : ℚ) ∧
    m_r_per_area cfgC5w (getInfoFrame cfgC5w fC5w) 0 ≠ 0 :=
  (area_per_residue_threshold cfgC5w (getInfoFrame cfgC5w fC5w) 0).2.1
    ⟨by rw [evalC5_dens]; norm_num, by rw [evalC5_residArr]; norm_num⟩

/-! ### Claim C2 — per-slab areas -/

/-- C2 counterexample: with lateral cell size `dz = 5/2` and one occupied
membrane cell, the source stores `int(1 * 2.5 * 2.5) = 6` in the
`dtype=int` area array, not the claimed `count * dz² = 25/4`. -/
theorem area_int_cast_counterexample :
    ((getInfoFrame cfgC2x fC2x).memArea 0 : ℚ) ≠
      (countNZ cfgC2x (getInfoFrame cfgC2x fC2x).mem 0 : ℚ) * cfgC2x.dz * cfgC2x.dz := by
  have hcell : cellIdx (5/2) 1 ({ x := 0, y := 0, z := 0, resid := 1, resname := "PC" } :
      Atom) = (0, 0, 0) := by
    norm_num [cellIdx, pyInt]
  have hcnt : countNZ cfgC2x (getInfoFrame cfgC2x fC2x).mem 0 = 1 := by
    simp [getInfoFrame, membranePhase, cfgC2x, fC2x, memSameStep, hcell, npPos, npIdx,
      regResid, countNZ, vset, vget, vzero, List.range_succ]
  have harea : (getInfoFrame cfgC2x fC2x).memArea 0 = 6 := by
    show areaInt cfgC2x (countNZ cfgC2x (getInfoFrame cfgC2x fC2x).mem 0) = 6
    rw [hcnt]
    norm_num [areaInt, pyInt, cfgC2x]
  rw [harea, hcnt]
  norm_num [cfgC2x]

/-- C2 (amended): each per-species area stored for a z-slab equals
`⌊count · dz²⌋` — the number of cells of the slab with nonzero occupancy
times `dz²`, truncated by the `dtype=int` array assignment (and exactly
`count · dz²` whenever `dz²` is an integer); each such area satisfies
`0 ≤ area ≤ nx·ny·dz²`; and the stored total area is exactly the sum of
the protein, membrane and water areas. -/
theorem slab_area_floor_bounds_total (cfg : Cfg) (f : FrameAtoms) (kz : ℕ) :
    (getInfoFrame cfg f).protArea kz =
      ⌊(cardNZ cfg (getInfoFrame cfg f).prot kz : ℚ) * cfg.dz ^ 2⌋ ∧
    (getInfoFrame cfg f).memArea kz =
      ⌊(cardNZ cfg (getInfoFrame cfg f).mem kz : ℚ) * cfg.dz ^ 2⌋ ∧
    (getInfoFrame cfg f).watArea kz =
      ⌊(cardNZ cfg (getInfoFrame cfg f).wat kz : ℚ) * cfg.dz ^ 2⌋ ∧
    (0 ≤ (getInfoFrame cfg f).protArea kz ∧
      ((getInfoFrame cfg f).protArea kz : ℚ) ≤ (cfg.nx : ℚ) * (cfg.ny : ℚ) * cfg.dz ^ 2) ∧
    (0 ≤ (getInfoFrame cfg f).memArea kz ∧
      ((getInfoFrame cfg f).memArea kz : ℚ) ≤ (cfg.nx : ℚ) * (cfg.ny : ℚ) * cfg.dz ^ 2) ∧
    (0 ≤ (getInfoFrame cfg f).watArea kz ∧
      ((getInfoFrame cfg f).watArea kz : ℚ) ≤ (cfg.nx : ℚ) * (cfg.ny : ℚ) * cfg.dz ^ 2) ∧
    (getInfoFrame cfg f).totArea kz =
      (getInfoFrame cfg f).protArea kz + (getInfoFrame cfg f).memArea kz +
        (getInfoFrame cfg f).watArea kz ∧
    (∀ m : ℤ, cfg.dz ^ 2 = (m : ℚ) →
      ((getInfoFrame cfg f).protArea kz : ℚ) =
        (cardNZ cfg (getInfoFrame cfg f).prot kz : ℚ) * cfg.dz ^ 2 ∧
      ((getInfoFrame cfg f).memArea kz : ℚ) =
        (cardNZ cfg (getInfoFrame cfg f).mem kz : ℚ) * cfg.dz ^ 2 ∧
      ((getInfoFrame cfg f).watArea kz : ℚ) =
        (cardNZ cfg (getInfoFrame cfg f).wat kz : ℚ) * cfg.dz ^ 2) := by
  obtain ⟨hp1, hp2, hp3, hp4⟩ := areaInt_facts cfg (getInfoFrame cfg f).prot kz
  obtain ⟨hm1, hm2, hm3, hm4⟩ := areaInt_facts cfg (getInfoFrame cfg f).mem kz
  obtain ⟨hw1, hw2, hw3, hw4⟩ := areaInt_facts cfg (getInfoFrame cfg f).wat kz
  exact ⟨hp1, hm1, hw1, ⟨hp2, hp3⟩, ⟨hm2, hm3⟩, ⟨hw2, hw3⟩, rfl,
    fun m hm => ⟨hp4 m hm, hm4 m hm, hw4 m hm⟩⟩

/-- C2 witness: evaluation at an integer cell size `dz = 3`, where the
truncation is the identity. -/
theorem slab_area_floor_bounds_total_witness :
    ((getInfoFrame cfgC2w fC2x).memArea 0 : ℚ) =
      (cardNZ cfgC2w (getInfoFrame cfgC2w fC2x).mem 0 : ℚ) * cfgC2w.dz ^ 2 :=
  ((slab_area_floor_bounds_total cfgC2w fC2x 0).2.2.2.2.2.2.2 9 (by norm_num [cfgC2w])).2.1

/-! ### Claim C7 — grid sizing -/

/-- C7: the grid dimensions are computed once, from trajectory frame 0's
(post-normalization) box dimensions, as `nz = ⌊box_z/dh⌋ + margin + 1`,
`nx = ⌊box_x/dz⌋ + margin`, `ny = ⌊box_y/dz⌋ + margin` with
`margin = max 2 (⌊4/dz⌋ + 1)`, and every processed frame is analyzed with
that same fixed configuration. -/
theorem grid_dims_once (d dh : ℚ) (split : Bool) (f0 : Frame) (processed : List Frame)
    (hd : 0 < d) (hdh : 0 < dh)
    (hx : 0 ≤ f0.boxx) (hy : 0 ≤ f0.boxy) (hz : 0 ≤ f0.boxz) :
    (((Get_info d dh split f0 processed).1.nz : ℤ) = ⌊f0.boxz / dh⌋ + margin d + 1) ∧
    (((Get_info d dh split f0 processed).1.nx : ℤ) = ⌊f0.boxx / d⌋ + margin d) ∧
    (((Get_info d dh split f0 processed).1.ny : ℤ) = ⌊f0.boxy / d⌋ + margin d) ∧
    margin d = max 2 (⌊(4 : ℚ) / d⌋ + 1) ∧
    (Get_info d dh split f0 processed).2 =
      processed.map (fun fr => getInfoFrame (Get_info d dh split f0 processed).1 fr.atoms) := by
  have hmarg : (2 : ℤ) ≤ margin d := le_max_left _ _
  have hz' : pyInt (f0.boxz / dh) = ⌊f0.boxz / dh⌋ := pyInt_of_nonneg (div_nonneg hz hdh.le)
  have hx' : pyInt (f0.boxx / d) = ⌊f0.boxx / d⌋ := pyInt_of_nonneg (div_nonneg hx hd.le)
  have hy' : pyInt (f0.boxy / d) = ⌊f0.boxy / d⌋ := pyInt_of_nonneg (div_nonneg hy hd.le)
  have hfz : (0 : ℤ) ≤ ⌊f0.boxz / dh⌋ := Int.floor_nonneg.mpr (div_nonneg hz hdh.le)
  have hfx : (0 : ℤ) ≤ ⌊f0.boxx / d⌋ := Int.floor_nonneg.mpr (div_nonneg hx hd.le)
  have hfy : (0 : ℤ) ≤ ⌊f0.boxy / d⌋ := Int.floor_nonneg.mpr (div_nonneg hy hd.le)
  refine ⟨?_, ?_, ?_, ?_, ?_⟩
  · show ((pyInt (f0.boxz / dh) + margin d + 1).toNat : ℤ) = _
    rw [hz', Int.toNat_of_nonneg (by omega)]
  · show ((pyInt (f0.boxx / d) + margin d).toNat : ℤ) = _
    rw [hx', Int.toNat_of_nonneg (by omega)]
  · show ((pyInt (f0.boxy / d) + margin d).toNat : ℤ) = _
    rw [hy', Int.toNat_of_nonneg (by omega)]
  · unfold margin
    rw [pyInt_of_nonneg (div_nonneg (by norm_num) hd.le)]
  · show processed.foldl (fun acc fr => acc ++ [getInfoFrame _ fr.atoms]) [] = _
    rw [foldlAppendMap]
    exact (List.nil_append _).symm

/-- C7 witness: evaluation at `d = dh = 3` and a cubic 40 Å box. -/
theorem grid_dims_once_witness :
    (((Get_info 3 3 false fC7w []).1.nz : ℤ) = ⌊fC7w.boxz / 3⌋ + margin 3 + 1) ∧
    (Get_info 3 3 false fC7w []).2 = [] := by
  obtain ⟨h1, _, _, _, h5⟩ :=
    grid_dims_once 3 3 false fC7w [] (by norm_num) (by norm_num)
      (by norm_num [fC7w]) (by norm_num [fC7w]) (by norm_num [fC7w])
  exact ⟨h1, by rw [h5]; rfl⟩

end MembraneAnalysis
